import Mathlib

/-!
Verification of `li_extract.py` (certificate-metadata extractor).

Strings are modelled as `List Char`.  Python regular expressions are
embedded as explicit scanning functions that follow the backtracking
semantics of the concrete patterns appearing in the source.  Character
classes (`\w`, `\s`, `\d`, ...) are modelled over ASCII.
-/

abbrev Str := List Char

def S (s : String) : Str := s.data

/-- ASCII decimal digit, Python `\d`. -/
def isDigitC (c : Char) : Bool := decide ('0' ≤ c ∧ c ≤ '9')

/-- Python `\s` over ASCII: space, tab, newline, carriage return, vertical tab, form feed. -/
def isSpaceC (c : Char) : Bool :=
  c == ' ' || c == '\t' || c == '\n' || c == '\r' || c == Char.ofNat 11 || c == Char.ofNat 12

def isUpperC (c : Char) : Bool := decide ('A' ≤ c ∧ c ≤ 'Z')

def isLowerC (c : Char) : Bool := decide ('a' ≤ c ∧ c ≤ 'z')

def isAlphaC (c : Char) : Bool := isUpperC c || isLowerC c

def isAlnumC (c : Char) : Bool := isAlphaC c || isDigitC c

/-- Python `\w` over ASCII: alphanumeric or underscore. -/
def isWordC (c : Char) : Bool := isAlnumC c || c == '_'

/-- ASCII `str.lower()` on one character. -/
def lowerC (c : Char) : Char := if isUpperC c then Char.ofNat (c.toNat + 32) else c

/-- `re.sub(r'(.)\1+', r'\1', text)`: collapse every maximal run of 2+ identical
consecutive characters to one occurrence.  Python `.` does not match `'\n'`,
so runs of newlines are left untouched by this pass. -/
def collapseRuns (l : Str) : Str :=
  match l with
  | [] => []
  | c :: rest =>
    if c = '\n' then c :: collapseRuns rest
    else c :: collapseRuns (rest.dropWhile (fun d => d = c))
termination_by l.length
decreasing_by
  all_goals simp only [List.length_cons]
  · omega
  · exact Nat.lt_succ_of_le (List.dropWhile_sublist _).length_le

/-- `re.sub(r'\s+', ' ', text)`: collapse every whitespace run to a single space. -/
def collapseWs (l : Str) : Str :=
  match l with
  | [] => []
  | c :: rest =>
    if isSpaceC c then ' ' :: collapseWs (rest.dropWhile isSpaceC)
    else c :: collapseWs rest
termination_by l.length
decreasing_by
  all_goals simp only [List.length_cons]
  · exact Nat.lt_succ_of_le (List.dropWhile_sublist _).length_le
  · omega

/-- Remove trailing whitespace (the right half of Python `str.strip()`). -/
def rstripR (l : Str) : Str :=
  match l with
  | [] => []
  | c :: rest =>
    match rstripR rest with
    | [] => if isSpaceC c then [] else [c]
    | r => c :: r

/-- Python `str.strip()`: drop leading and trailing whitespace. -/
def stripS (l : Str) : Str := rstripR (l.dropWhile isSpaceC)

/-- `clean_text` from the source: collapse duplicated characters, collapse
whitespace to single spaces, strip. -/
def clean_text (l : Str) : Str := stripS (collapseWs (collapseRuns l))

/-- `adjOK R l` holds when every pair of adjacent characters of `l` satisfies `R`. -/
def adjOK (R : Char → Char → Bool) (l : Str) : Bool :=
  match l with
  | [] => true
  | [_] => true
  | a :: b :: rest => R a b && adjOK R (b :: rest)

theorem adjOK_tail {R : Char → Char → Bool} {a : Char} {l : Str}
    (h : adjOK R (a :: l) = true) : adjOK R l = true := by
  cases l with
  | nil => rfl
  | cons b rest => exact (Bool.and_eq_true_iff.mp h).2

theorem adjOK_cons_head {R : Char → Char → Bool} {a b : Char} {l : Str}
    (h : adjOK R (a :: b :: l) = true) : R a b = true :=
  (Bool.and_eq_true_iff.mp h).1

theorem adjOK_dropWhile {R : Char → Char → Bool} (p : Char → Bool) {l : Str}
    (h : adjOK R l = true) : adjOK R (l.dropWhile p) = true := by
  induction l with
  | nil => exact h
  | cons a rest ih =>
    by_cases hp : p a = true
    · simpa [List.dropWhile, hp] using ih (adjOK_tail h)
    · simpa [List.dropWhile, hp] using h

theorem head?_dropWhile {p : Char → Bool} {l : Str} {c : Char}
    (h : (l.dropWhile p).head? = some c) : p c = false := by
  induction l with
  | nil => simp [List.dropWhile] at h
  | cons a rest ih =>
    by_cases hp : p a = true
    · exact ih (by simpa [List.dropWhile, hp] using h)
    · simp [List.dropWhile, hp] at h
      subst h
      exact Bool.of_not_eq_true hp

/-! ### Path helpers (`os.path` on POSIX) -/

/-- `os.path.basename`: the part after the last slash. -/
def basenameP (p : Str) : Str := (p.reverse.takeWhile (fun c => c ≠ '/')).reverse

/-- Strip trailing slashes. -/
def rstripSlash (l : Str) : Str := (l.reverse.dropWhile (fun c => c = '/')).reverse

/-- `os.path.dirname`: text before the last slash, with trailing slashes removed
unless the head consists only of slashes. -/
def dirnameP (p : Str) : Str :=
  let i := (p.reverse.takeWhile (fun c => c ≠ '/')).length
  if i = p.length then []
  else
    let head := p.take (p.length - i)
    if head.all (fun c => c = '/') then head else rstripSlash head

/-- `os.path.join` for two components. -/
def joinP (a b : Str) : Str :=
  if b.head? = some '/' then b
  else if a = [] ∨ a.getLast? = some '/' then a ++ b
  else a ++ '/' :: b

/-! ### Regex primitives -/

/-- Match a literal (case-sensitively); return the rest of the input. -/
def litP (pat l : Str) : Option Str :=
  match pat, l with
  | [], l => some l
  | _ :: _, [] => none
  | p :: ps, c :: rest => if c = p then litP ps rest else none

/-- Match exactly `n` characters satisfying `p`; return them and the rest. -/
def takeCount (p : Char → Bool) (n : Nat) (l : Str) : Option (Str × Str) :=
  match n, l with
  | 0, l => some ([], l)
  | _ + 1, [] => none
  | n + 1, c :: rest =>
    if p c then
      match takeCount p n rest with
      | some (ds, r) => some (c :: ds, r)
      | none => none
    else none

/-! ### `rename_file` -/

/-- `re.sub(r'[^\w\-]', '', title).lower().replace(' ', '-')`.  The character
filter runs first and `' '` is neither a word character nor `'-'`, so spaces
are deleted before the replacement can see them. -/
def rfCleanTitle (t : Str) : Str :=
  ((t.filter (fun c => isWordC c || c == '-')).map lowerC).map
    (fun c => if c = ' ' then '-' else c)

/-- `re.match(r'(\d{4})-(\d{2})-(\d{2})', date)` viewed as a Boolean test. -/
def isoMatchB (d : Str) : Bool :=
  match takeCount isDigitC 4 d with
  | none => false
  | some (_, r1) =>
    match litP (S "-") r1 with
    | none => false
    | some r2 =>
      match takeCount isDigitC 2 r2 with
      | none => false
      | some (_, r3) =>
        match litP (S "-") r3 with
        | none => false
        | some r4 => (takeCount isDigitC 2 r4).isSome

/-- `re.match(r'(\w+)\s+(\d{1,2}),\s+(\d{4})', date)`: the three groups
(month word, day digits, year digits).  Greedy `\w+`/`\s+` are maximal runs;
`\d{1,2}` succeeds exactly when the digit run has length 1 or 2 and a comma
follows (a third digit defeats both backtracking attempts). -/
def monthMatchRF (d : Str) : Option (Str × Str × Str) :=
  let w := d.takeWhile isWordC
  if w = [] then none
  else
    let r1 := d.dropWhile isWordC
    if r1.takeWhile isSpaceC = [] then none
    else
      let r2 := r1.dropWhile isSpaceC
      let ds := r2.takeWhile isDigitC
      if ds.length = 0 ∨ 2 < ds.length then none
      else
        match litP (S ",") (r2.dropWhile isDigitC) with
        | none => none
        | some r4 =>
          if r4.takeWhile isSpaceC = [] then none
          else
            match takeCount isDigitC 4 (r4.dropWhile isSpaceC) with
            | some (ys, _) => some (w, ds, ys)
            | none => none

/-- The month-prefix table: first three letters, lowercased, defaulting to `"01"`. -/
def monthNum (w : Str) : Str :=
  let k := (w.take 3).map lowerC
  if k = S "jan" then S "01" else if k = S "feb" then S "02"
  else if k = S "mar" then S "03" else if k = S "apr" then S "04"
  else if k = S "may" then S "05" else if k = S "jun" then S "06"
  else if k = S "jul" then S "07" else if k = S "aug" then S "08"
  else if k = S "sep" then S "09" else if k = S "oct" then S "10"
  else if k = S "nov" then S "11" else if k = S "dec" then S "12"
  else S "01"

/-- `str.zfill(2)`. -/
def zfill2 (l : Str) : Str := if 2 ≤ l.length then l else List.replicate (2 - l.length) '0' ++ l

/-- The date normalization inside `rename_file`: keep a `YYYY-MM-DD`-prefixed
date as is, convert a `<Month> <day>, <year>`-prefixed date to ISO, and keep
anything else verbatim. -/
def rfDate (date : Str) : Str :=
  if isoMatchB date then date
  else
    match monthMatchRF date with
    | some (w, ds, ys) => ys ++ S "-" ++ monthNum w ++ S "-" ++ zfill2 ds
    | none => date

/-- Outcome of `rename_file`: the `os.rename` call performed (if any) and the
returned path. -/
structure RenameResult where
  renamed : Option (Str × Str)
  ret : Str
deriving DecidableEq, Repr

/-- The target path `rename_file` derives from source path, date and title. -/
def newPathOf (file_path date title : Str) : Str :=
  joinP (dirnameP file_path) (rfDate date ++ S "-" ++ rfCleanTitle title ++ S ".pdf")

/-- `rename_file`, with the filesystem abstracted as an `fsExists` predicate.
`if date and title` is Python truthiness on the two strings. -/
def rename_file (fsExists : Str → Bool) (file_path date title : Str) : RenameResult :=
  if date ≠ [] ∧ title ≠ [] then
    let new_path := newPathOf file_path date title
    if file_path ≠ new_path ∧ fsExists new_path = false then
      ⟨some (file_path, new_path), new_path⟩
    else ⟨none, new_path⟩
  else ⟨none, file_path⟩

/-! ### Claims about the filename deriver -/

/-- C2: on date `"March 5, 2024"` and title `"Intro to Networking!"` the code
derives the ISO date `2024-03-05` as claimed, but the filename it actually
produces is `2024-03-05-introtonetworking.pdf`: the character filter deletes
the spaces before the space-to-hyphen replacement can act, so the claimed
`2024-03-05-intro-to-networking.pdf` is never produced. -/
theorem rename_file_march5_eval :
    rfDate (S "March 5, 2024") = S "2024-03-05"
    ∧ rename_file (fun _ => false) (S "certs/c.pdf") (S "March 5, 2024") (S "Intro to Networking!")
      = ⟨some (S "certs/c.pdf", S "certs/2024-03-05-introtonetworking.pdf"),
         S "certs/2024-03-05-introtonetworking.pdf"⟩
    ∧ rfCleanTitle (S "Intro to Networking!") ≠ S "intro-to-networking" := by
  exact ⟨by decide, by decide, by decide⟩

/-- C3 counterexample: with the derived target `a/2024-01-02-t.pdf` already on
disk, `rename_file` performs no rename but returns the derived target path,
not the original source path `a/x.pdf` — refuting the claim that the original
path is returned unchanged. -/
theorem rename_file_conflict_counterexample :
    (rename_file (fun p => decide (p = S "a/2024-01-02-t.pdf"))
        (S "a/x.pdf") (S "2024-01-02") (S "t")).renamed = none
    ∧ (rename_file (fun p => decide (p = S "a/2024-01-02-t.pdf"))
        (S "a/x.pdf") (S "2024-01-02") (S "t")).ret ≠ S "a/x.pdf" := by
  exact ⟨by decide, by decide⟩

/-- C3 amended: when the derived target path already exists, `rename_file`
performs no rename (it never overwrites: every rename it does perform targets
a non-existing path distinct from the source) but it returns the derived
target path, which differs from the original path whenever the two differ. -/
theorem rename_file_conflict_amended :
    (∀ (fs : Str → Bool) (p d t : Str), d ≠ [] → t ≠ [] →
        fs (newPathOf p d t) = true →
        (rename_file fs p d t).renamed = none
        ∧ (rename_file fs p d t).ret = newPathOf p d t)
    ∧ (∀ (fs : Str → Bool) (p d t src dst : Str),
        (rename_file fs p d t).renamed = some (src, dst) →
        fs dst = false ∧ src = p ∧ p ≠ dst) := by
  constructor
  · intro fs p d t hd ht hex
    simp only [rename_file, if_pos (And.intro hd ht)]
    have hcond : ¬(p ≠ newPathOf p d t ∧ fs (newPathOf p d t) = false) := by
      intro hc
      rw [hex] at hc
      exact Bool.true_eq_false.mp hc.2
    rw [if_neg hcond]
    exact ⟨rfl, rfl⟩
  · intro fs p d t src dst h
    by_cases hdt : d ≠ [] ∧ t ≠ []
    · simp only [rename_file, if_pos hdt] at h
      by_cases hc : p ≠ newPathOf p d t ∧ fs (newPathOf p d t) = false
      · rw [if_pos hc] at h
        have h1 : src = p ∧ dst = newPathOf p d t := by
          have := h
          simp only [RenameResult.mk.injEq, Option.some.injEq, Prod.mk.injEq] at this
          exact ⟨this.1.symm, this.2.symm⟩
        rcases h1 with ⟨h1, h2⟩
        subst h1; subst h2
        exact ⟨hc.2, rfl, hc.1⟩
      · rw [if_neg hc] at h
        exact Option.noConfusion h
    · simp only [rename_file, if_neg hdt] at h
      exact Option.noConfusion h

/-- C3 witness: the amended theorem applied at a concrete conflicting input. -/
theorem rename_file_conflict_amended_witness :
    (rename_file (fun p => decide (p = S "a/2024-01-02-t.pdf"))
        (S "a/x.pdf") (S "2024-01-02") (S "t")).renamed = none
    ∧ (rename_file (fun p => decide (p = S "a/2024-01-02-t.pdf"))
        (S "a/x.pdf") (S "2024-01-02") (S "t")).ret
      = newPathOf (S "a/x.pdf") (S "2024-01-02") (S "t") :=
  rename_file_conflict_amended.1 (fun p => decide (p = S "a/2024-01-02-t.pdf"))
    (S "a/x.pdf") (S "2024-01-02") (S "t") (by decide) (by decide) (by decide)

/-- C10: when date and title are both present (non-empty) but the date text
matches neither the ISO-prefixed form nor the `<Month> <day>, <year>` form,
`rename_file` does not skip: the new filename embeds the raw date text
verbatim, and the rename is performed under the usual no-conflict
conditions. -/
theorem rename_file_unrecognized_date (fs : Str → Bool) (p d t : Str)
    (hd : d ≠ []) (ht : t ≠ []) (hiso : isoMatchB d = false)
    (hmon : monthMatchRF d = none) :
    (rename_file fs p d t).ret
      = joinP (dirnameP p) (d ++ S "-" ++ rfCleanTitle t ++ S ".pdf")
    ∧ (p ≠ joinP (dirnameP p) (d ++ S "-" ++ rfCleanTitle t ++ S ".pdf") →
        fs (joinP (dirnameP p) (d ++ S "-" ++ rfCleanTitle t ++ S ".pdf")) = false →
        (rename_file fs p d t).renamed
          = some (p, joinP (dirnameP p) (d ++ S "-" ++ rfCleanTitle t ++ S ".pdf"))) := by
  have hdate : rfDate d = d := by
    simp only [rfDate, hiso, hmon]
    rfl
  have hnp : newPathOf p d t = joinP (dirnameP p) (d ++ S "-" ++ rfCleanTitle t ++ S ".pdf") := by
    simp only [newPathOf, hdate]
  constructor
  · simp only [rename_file, if_pos (And.intro hd ht), ← hnp]
    by_cases hc : p ≠ newPathOf p d t ∧ fs (newPathOf p d t) = false
    · rw [if_pos hc]
    · rw [if_neg hc]
  · intro hne hex
    simp only [rename_file, if_pos (And.intro hd ht), ← hnp]
    rw [if_pos (And.intro (hnp ▸ hne) (hnp ▸ hex))]

/-- C10 witness: a date `05/03/2024` that fits neither recognized form is used
verbatim in the derived filename and the rename is performed. -/
theorem rename_file_unrecognized_date_witness :
    (rename_file (fun _ => false) (S "a/x.pdf") (S "05/03/2024") (S "My Course")).ret
      = joinP (dirnameP (S "a/x.pdf"))
          (S "05/03/2024" ++ S "-" ++ rfCleanTitle (S "My Course") ++ S ".pdf")
    ∧ (rename_file (fun _ => false) (S "a/x.pdf") (S "05/03/2024") (S "My Course")).renamed
      = some (S "a/x.pdf",
          joinP (dirnameP (S "a/x.pdf"))
            (S "05/03/2024" ++ S "-" ++ rfCleanTitle (S "My Course") ++ S ".pdf")) := by
  have h := rename_file_unrecognized_date (fun _ => false) (S "a/x.pdf") (S "05/03/2024")
    (S "My Course") (by decide) (by decide) (by decide) (by decide)
  exact ⟨h.1, h.2 (by decide) (by decide)⟩

/-! ### `generate_course_url` -/

/-- Python `str.strip('-')`. -/
def stripHyphens (l : Str) : Str :=
  ((l.dropWhile (fun c => c = '-')).reverse.dropWhile (fun c => c = '-')).reverse

/-- `re.sub(r'[^\w\s-]', '', title.lower()).replace(' ', '-').strip('-')`. -/
def slugOf (title : Str) : Str :=
  stripHyphens
    (((title.map lowerC).filter (fun c => isWordC c || isSpaceC c || c == '-')).map
      (fun c => if c = ' ' then '-' else c))

/-- `generate_course_url`: per-provider URL template over the slug; the dict
lookup defaults to the empty string for an unknown provider. -/
def generate_course_url (title provider_id : Str) : Str :=
  let slug := slugOf title
  if provider_id = S "linkedinlearning" then S "https://www.linkedin.com/learning/" ++ slug
  else if provider_id = S "udemy" then S "https://www.udemy.com/course/" ++ slug ++ S "/"
  else if provider_id = S "cybrary" then S "https://www.cybrary.it/course/" ++ slug ++ S "/"
  else if provider_id = S "deeplearningai" then
    S "https://www.deeplearning.ai/short-courses/" ++ slug ++ S "/"
  else []

/-- Slug as the claim words it: title lowercased, every character other than
alphanumerics, hyphens and spaces removed, spaces replaced by hyphens,
leading/trailing hyphens trimmed.  (Kept separate from `slugOf`, which embeds
the code: the code's `\w` class also keeps underscores, and its `\s` class
keeps all whitespace while only `' '` becomes a hyphen.) -/
def claimSlugC8 (t : Str) : Str :=
  stripHyphens
    (((t.map lowerC).filter (fun c => isAlnumC c || c == '-' || c == ' ')).map
      (fun c => if c = ' ' then '-' else c))

/-- The amended per-character description of the code's slug: lowercase, keep
word characters (alphanumerics and underscores), hyphens and whitespace, with
a space becoming a hyphen, then trim leading/trailing hyphens. -/
def amendedSlugC8 (t : Str) : Str :=
  stripHyphens (t.foldr
    (fun c acc =>
      let c' := lowerC c
      if c' = ' ' then '-' :: acc
      else if isWordC c' || isSpaceC c' || c' = '-' then c' :: acc
      else acc) [])

/-- C8 counterexample: the code keeps underscores (they are word characters),
so for title `"a_b"` the generated Udemy URL differs from the one the claim's
alphanumeric-only slug would give. -/
theorem generate_course_url_counterexample :
    generate_course_url (S "a_b") (S "udemy")
      ≠ S "https://www.udemy.com/course/" ++ claimSlugC8 (S "a_b") ++ S "/" := by
  decide

/-- C8 amended: the slug keeps word characters (alphanumerics and
underscores), hyphens and whitespace, lowercases, turns spaces into hyphens
and trims hyphens at the ends; an unknown provider yields the empty URL; the
claimed example `"C++ Basics: Pointers"` still slugs to
`"c-basics-pointers"`, while `"a_b"` keeps its underscore. -/
theorem generate_course_url_amended :
    (∀ t : Str, slugOf t = amendedSlugC8 t)
    ∧ (∀ t p : Str, p ≠ S "linkedinlearning" → p ≠ S "udemy" → p ≠ S "cybrary" →
        p ≠ S "deeplearningai" → generate_course_url t p = [])
    ∧ generate_course_url (S "C++ Basics: Pointers") (S "udemy")
        = S "https://www.udemy.com/course/c-basics-pointers/"
    ∧ slugOf (S "a_b") = S "a_b" := by
  refine ⟨?_, ?_, by decide, by decide⟩
  · intro t
    unfold slugOf amendedSlugC8
    congr 1
    induction t with
    | nil => rfl
    | cons c rest ih =>
      simp only [List.map_cons, List.filter_cons, List.foldr_cons, ← ih]
      by_cases hsp : lowerC c = ' '
      · simp [hsp, isWordC, isAlnumC, isAlphaC, isUpperC, isLowerC, isDigitC, isSpaceC]
      · rw [if_neg hsp]
        by_cases hkeep : (isWordC (lowerC c) || isSpaceC (lowerC c) || decide (lowerC c = '-')) = true
        · rw [if_pos hkeep, if_pos (by simpa using hkeep), List.map_cons, if_neg hsp]
        · rw [if_neg hkeep, if_neg (by simpa using hkeep)]
  · intro t p h1 h2 h3 h4
    simp only [generate_course_url, if_neg h1, if_neg h2, if_neg h3, if_neg h4]

/-- C8 witness: the amended theorem applied to an unknown provider. -/
theorem generate_course_url_amended_witness :
    generate_course_url (S "X Y") (S "coursera") = [] :=
  generate_course_url_amended.2.1 (S "X Y") (S "coursera")
    (by decide) (by decide) (by decide) (by decide)

/-! ### Idempotence of the text normalizer -/

/-- Adjacent characters are distinct. -/
def neC (a b : Char) : Bool := !(a == b)

/-- Adjacent characters are distinct unless the left one is a newline (the
guarantee `collapseRuns` gives, since `.` does not match newlines). -/
def r1C (a b : Char) : Bool := !(a == b) || (a == '\n')

theorem adjOK_cons_intro {R : Char → Char → Bool} {a : Char} {l : Str}
    (h1 : ∀ b, l.head? = some b → R a b = true) (h2 : adjOK R l = true) :
    adjOK R (a :: l) = true := by
  cases l with
  | nil => rfl
  | cons b rest =>
    have := h1 b rfl
    simp only [adjOK, this, Bool.true_and]
    exact h2

theorem adjOK_head_rel {R : Char → Char → Bool} {a b : Char} {l : Str}
    (h : adjOK R (a :: l) = true) (hb : l.head? = some b) : R a b = true := by
  cases l with
  | nil => exact absurd hb (by simp)
  | cons c rest =>
    simp only [List.head?_cons, Option.some.injEq] at hb
    subst hb
    exact adjOK_cons_head h

theorem collapseRuns_head (l : Str) : (collapseRuns l).head? = l.head? := by
  cases l with
  | nil => rw [collapseRuns]
  | cons c rest =>
    rw [collapseRuns]
    by_cases h : c = '\n'
    · rw [if_pos h]; rfl
    · rw [if_neg h]; rfl

theorem collapseRuns_adjOK (l : Str) : adjOK r1C (collapseRuns l) = true := by
  induction l using collapseRuns.induct with
  | case1 => rw [collapseRuns]; rfl
  | case2 rest ih =>
    rw [collapseRuns, if_pos rfl]
    refine adjOK_cons_intro (fun b _ => ?_) ih
    simp [r1C]
  | case3 c rest h ih =>
    rw [collapseRuns, if_neg h]
    refine adjOK_cons_intro (fun b hb => ?_) ih
    rw [collapseRuns_head] at hb
    have hbc := head?_dropWhile hb
    simp only [decide_eq_false_iff_not] at hbc
    simp only [r1C, Bool.or_eq_true, Bool.not_eq_true', beq_eq_false_iff_ne, ne_eq, beq_iff_eq]
    exact Or.inl fun hcb => hbc hcb.symm

theorem collapseWs_head (c : Char) (rest : Str) :
    (collapseWs (c :: rest)).head? = some (if isSpaceC c then ' ' else c) := by
  rw [collapseWs]
  by_cases h : isSpaceC c = true
  · rw [if_pos h, if_pos h]; rfl
  · rw [if_neg h, if_neg h]; rfl

theorem collapseWs_space_mem (l : Str) :
    ∀ c ∈ collapseWs l, isSpaceC c = true → c = ' ' := by
  induction l using collapseWs.induct with
  | case1 => intro c hc; rw [collapseWs] at hc; exact absurd hc (by simp)
  | case2 a rest h ih =>
    intro c hc hsp
    rw [collapseWs, if_pos h] at hc
    rcases List.mem_cons.mp hc with h1 | h1
    · exact h1
    · exact ih c h1 hsp
  | case3 a rest h ih =>
    intro c hc hsp
    rw [collapseWs, if_neg h] at hc
    rcases List.mem_cons.mp hc with h1 | h1
    · subst h1; exact absurd hsp h
    · exact ih c h1 hsp

theorem collapseWs_adjOK (l : Str) (h : adjOK r1C l = true) :
    adjOK neC (collapseWs l) = true := by
  induction l using collapseWs.induct with
  | case1 => rw [collapseWs]; rfl
  | case2 a rest ha ih =>
    rw [collapseWs, if_pos ha]
    refine adjOK_cons_intro (fun b hb => ?_) (ih (adjOK_dropWhile _ (adjOK_tail h)))
    cases hrest : rest.dropWhile isSpaceC with
    | nil => rw [hrest, collapseWs] at hb; exact absurd hb (by simp)
    | cons d r =>
      rw [hrest, collapseWs_head] at hb
      have hd : isSpaceC d = false := head?_dropWhile (by rw [hrest]; rfl)
      rw [hd] at hb
      simp only [Bool.false_eq_true, if_false, Option.some.injEq] at hb
      subst hb
      simp only [neC, Bool.not_eq_true', beq_eq_false_iff_ne, ne_eq]
      intro hsb
      rw [← hsb] at hd
      simp [isSpaceC] at hd
  | case3 a rest ha ih =>
    rw [collapseWs, if_neg ha]
    refine adjOK_cons_intro (fun b hb => ?_) (ih (adjOK_tail h))
    cases rest with
    | nil => rw [collapseWs] at hb; exact absurd hb (by simp)
    | cons d r =>
      rw [collapseWs_head] at hb
      simp only [Option.some.injEq] at hb
      subst hb
      by_cases hd : isSpaceC d = true
      · rw [if_pos hd]
        simp only [neC, Bool.not_eq_true', beq_eq_false_iff_ne, ne_eq]
        intro hsb
        rw [hsb] at ha
        simp [isSpaceC] at ha
      · rw [if_neg hd]
        have hr : r1C a d = true := adjOK_head_rel h rfl
        simp only [r1C, Bool.or_eq_true, Bool.not_eq_true', beq_eq_false_iff_ne, ne_eq,
          beq_iff_eq] at hr
        rcases hr with h1 | h1
        · simp only [neC, Bool.not_eq_true', beq_eq_false_iff_ne, ne_eq]
          exact h1
        · rw [h1] at ha
          simp [isSpaceC] at ha

theorem rstripR_head {l : Str} {b : Char} (h : (rstripR l).head? = some b) :
    l.head? = some b := by
  induction l with
  | nil => exact absurd h (by simp [rstripR])
  | cons c rest ih =>
    rw [rstripR] at h
    cases hr : rstripR rest with
    | nil =>
      rw [hr] at h
      by_cases hs : isSpaceC c = true
      · rw [if_pos hs] at h; exact absurd h (by simp)
      · rw [if_neg hs] at h
        simp only [List.head?_cons, Option.some.injEq] at h ⊢
        exact h
    | cons d r =>
      rw [hr] at h
      simp only [List.head?_cons, Option.some.injEq] at h ⊢
      exact h

theorem rstripR_mem {l : Str} {c : Char} (h : c ∈ rstripR l) : c ∈ l := by
  induction l with
  | nil => exact absurd h (by simp [rstripR])
  | cons a rest ih =>
    rw [rstripR] at h
    cases hr : rstripR rest with
    | nil =>
      rw [hr] at h
      by_cases hs : isSpaceC a = true
      · rw [if_pos hs] at h; exact absurd h (by simp)
      · rw [if_neg hs] at h
        simp only [List.mem_singleton] at h
        subst h
        exact List.mem_cons_self _ _
    | cons d r =>
      rw [hr] at h
      rcases List.mem_cons.mp h with h1 | h1
      · subst h1; exact List.mem_cons_self _ _
      · exact List.mem_cons_of_mem _ (ih (by rw [hr]; exact h1))

theorem rstripR_adjOK {R : Char → Char → Bool} {l : Str} (h : adjOK R l = true) :
    adjOK R (rstripR l) = true := by
  induction l with
  | nil => exact h
  | cons c rest ih =>
    rw [rstripR]
    cases hr : rstripR rest with
    | nil =>
      by_cases hs : isSpaceC c = true
      · rw [if_pos hs]; rfl
      · rw [if_neg hs]; rfl
    | cons d r =>
      refine adjOK_cons_intro (fun b hb => ?_) (hr ▸ ih (adjOK_tail h))
      have : (rstripR rest).head? = some b := by rw [hr]; exact hb
      exact adjOK_head_rel h (rstripR_head this)

theorem rstripR_getLast {l : Str} {c : Char} (h : (rstripR l).getLast? = some c) :
    isSpaceC c = false := by
  induction l with
  | nil => exact absurd h (by simp [rstripR])
  | cons a rest ih =>
    rw [rstripR] at h
    cases hr : rstripR rest with
    | nil =>
      rw [hr] at h
      by_cases hs : isSpaceC a = true
      · rw [if_pos hs] at h; exact absurd h (by simp)
      · rw [if_neg hs] at h
        simp only [List.getLast?_singleton, Option.some.injEq] at h
        subst h
        exact Bool.of_not_eq_true hs
    | cons d r =>
      rw [hr] at h
      rw [List.getLast?_cons_cons] at h
      exact ih (hr ▸ h)

theorem dropWhile_fix {p : Char → Bool} {l : Str}
    (h : ∀ c, l.head? = some c → p c = false) : l.dropWhile p = l := by
  cases l with
  | nil => rfl
  | cons c rest =>
    rw [List.dropWhile_cons, h c rfl]
    simp

theorem rstripR_fix {l : Str} (h : ∀ c, l.getLast? = some c → isSpaceC c = false) :
    rstripR l = l := by
  induction l with
  | nil => rfl
  | cons c rest ih =>
    rw [rstripR]
    cases rest with
    | nil =>
      have := h c (by simp)
      rw [rstripR]
      rw [if_neg (by simp [this])]
    | cons d r =>
      have hrest : rstripR (d :: r) = d :: r := by
        refine ih fun b hb => h b ?_
        rw [List.getLast?_cons_cons]
        exact hb
      rw [hrest]

theorem collapseRuns_fix {l : Str} (hsp : ∀ c ∈ l, isSpaceC c = true → c = ' ')
    (hadj : adjOK neC l = true) : collapseRuns l = l := by
  induction l with
  | nil => rw [collapseRuns]
  | cons c rest ih =>
    have hcn : c ≠ '\n' := by
      intro he
      have := hsp c (List.mem_cons_self _ _) (by rw [he]; rfl)
      rw [he] at this
      exact absurd this (by decide)
    rw [collapseRuns, if_neg hcn]
    have hdw : rest.dropWhile (fun d => decide (d = c)) = rest := by
      refine dropWhile_fix fun b hb => ?_
      have := adjOK_head_rel hadj hb
      simp only [neC, Bool.not_eq_true', beq_eq_false_iff_ne, ne_eq] at this
      simp only [decide_eq_false_iff_not]
      intro he
      exact this he.symm
    rw [hdw, ih (fun d hd => hsp d (List.mem_cons_of_mem _ hd)) (adjOK_tail hadj)]

theorem collapseWs_fix {l : Str} (hsp : ∀ c ∈ l, isSpaceC c = true → c = ' ')
    (hadj : adjOK neC l = true) : collapseWs l = l := by
  induction l with
  | nil => rw [collapseWs]
  | cons c rest ih =>
    rw [collapseWs]
    by_cases hs : isSpaceC c = true
    · have hc : c = ' ' := hsp c (List.mem_cons_self _ _) hs
      rw [if_pos hs]
      have hdw : rest.dropWhile isSpaceC = rest := by
        refine dropWhile_fix fun b hb => ?_
        have hne := adjOK_head_rel hadj hb
        simp only [neC, Bool.not_eq_true', beq_eq_false_iff_ne, ne_eq] at hne
        by_contra hsb
        have hb' : b = ' ' :=
          hsp b (List.mem_cons_of_mem _ (List.mem_of_mem_head? hb))
            (Bool.of_not_eq_false hsb)
        rw [hc, hb'] at hne
        exact hne rfl
      rw [hdw, hc, ih (fun d hd => hsp d (List.mem_cons_of_mem _ hd)) (adjOK_tail hadj)]
    · rw [if_neg hs, ih (fun d hd => hsp d (List.mem_cons_of_mem _ hd)) (adjOK_tail hadj)]

/-- C6: `clean_text` is idempotent — normalizing twice equals normalizing once. -/
theorem clean_text_idempotent (l : Str) : clean_text (clean_text l) = clean_text l := by
  have hspZ : ∀ c ∈ collapseWs (collapseRuns l), isSpaceC c = true → c = ' ' :=
    collapseWs_space_mem (collapseRuns l)
  have hadjZ : adjOK neC (collapseWs (collapseRuns l)) = true :=
    collapseWs_adjOK _ (collapseRuns_adjOK l)
  have hspY : ∀ c ∈ clean_text l, isSpaceC c = true → c = ' ' := by
    intro c hc
    exact hspZ c ((List.dropWhile_sublist _).subset (rstripR_mem hc))
  have hadjY : adjOK neC (clean_text l) = true :=
    rstripR_adjOK (adjOK_dropWhile _ hadjZ)
  have hheadY : ∀ c, (clean_text l).head? = some c → isSpaceC c = false := by
    intro c hc
    exact head?_dropWhile (rstripR_head hc)
  have hlastY : ∀ c, (clean_text l).getLast? = some c → isSpaceC c = false := by
    intro c hc
    exact rstripR_getLast hc
  show stripS (collapseWs (collapseRuns (clean_text l))) = clean_text l
  rw [collapseRuns_fix hspY hadjY, collapseWs_fix hspY hadjY]
  show rstripR ((clean_text l).dropWhile isSpaceC) = clean_text l
  rw [dropWhile_fix hheadY, rstripR_fix hlastY]

/-! ### The canonical record and `generate_statistics` -/

/-- The metadata dictionary built by `extract_metadata`. -/
structure Metadata where
  title : Str
  completion : Str
  skills : Str
  year : Option Str
  cert_id : Str
  instructors : List Str
  cert_url : Str
  course_url : Str
  pdf_url : Str
  provider : Str
deriving DecidableEq, Repr

/-- Split at the first occurrence of `sep`: the part before and the part after. -/
def splitFirst (sep : Str) (l : Str) : Option (Str × Str) :=
  match l with
  | [] => none
  | c :: rest =>
    match litP sep l with
    | some r => some ([], r)
    | none =>
      match splitFirst sep rest with
      | some (b, a) => some (c :: b, a)
      | none => none

/-- Python `str.split(', ')`.  The fuel argument only bounds the recursion:
every split removes the two separator characters, so `l.length` steps always
suffice and the fuel never runs out early. -/
def splitCSF (fuel : Nat) (l : Str) : List Str :=
  match fuel with
  | 0 => [l]
  | fuel + 1 =>
    match splitFirst (S ", ") l with
    | none => [l]
    | some (b, a) => b :: splitCSF fuel a

def splitCS (l : Str) : List Str := splitCSF l.length l

theorem splitCS_ne_nil (l : Str) : splitCS l ≠ [] := by
  unfold splitCS
  cases l.length with
  | zero => simp [splitCSF]
  | succ n =>
    simp only [splitCSF]
    cases splitFirst (S ", ") l with
    | none => simp
    | some p => simp

/-- The flattened skill stream the statistics code iterates over:
`skill for m in metadata_list for skill in m['skills'].split(', ') if m['skills']`. -/
def allSkillsOf (ms : List Metadata) : List Str :=
  ms.flatMap (fun m => if m.skills = [] then [] else splitCS m.skills)

/-- One `Counter` update: increment an existing key in place or append a new
key with count 1 (Python `Counter` preserves insertion order). -/
def bumpKey {α : Type} [DecidableEq α] (acc : List (α × Nat)) (s : α) : List (α × Nat) :=
  match acc with
  | [] => [(s, 1)]
  | (t, n) :: rest => if t = s then (t, n + 1) :: rest else (t, n) :: bumpKey rest s

/-- `collections.Counter` over an iteration, as an insertion-ordered
association list. -/
def counterOf {α : Type} [DecidableEq α] (l : List α) : List (α × Nat) :=
  l.foldl bumpKey []

/-- `Counter.most_common(1)`: the first key of maximal count in insertion
order (Python's sort is stable and descending by count). -/
def mostCommon1 {α : Type} (c : List (α × Nat)) : Option (α × Nat) :=
  match c with
  | [] => none
  | (s, n) :: rest =>
    match mostCommon1 rest with
    | none => some (s, n)
    | some (t, m) => if n < m then some (t, m) else some (s, n)

/-- Count of occurrences in a list. -/
def countK {α : Type} [DecidableEq α] (s : α) (l : List α) : Nat :=
  match l with
  | [] => 0
  | c :: rest => (if c = s then 1 else 0) + countK s rest

/-- Index of the first occurrence (length of the list when absent). -/
def firstIdx {α : Type} [DecidableEq α] (s : α) (l : List α) : Nat :=
  match l with
  | [] => 0
  | c :: rest => if c = s then 0 else firstIdx s rest + 1

/-- Lookup in an association list (0 when the key is absent — `Counter`
semantics). -/
def keyCnt {α : Type} [DecidableEq α] (c : List (α × Nat)) (s : α) : Nat :=
  match c with
  | [] => 0
  | (t, n) :: rest => if t = s then n else keyCnt rest s

/-- Python dict assignment `d[k] = v`: overwrite in place or append. -/
def dictPut {α : Type} [DecidableEq α] (acc : List (α × Nat)) (k : α) (v : Nat) :
    List (α × Nat) :=
  match acc with
  | [] => [(k, v)]
  | (t, n) :: rest => if t = k then (t, v) :: rest else (t, n) :: dictPut rest k v

/-- The `most_common_skill` field of `generate_statistics`: `'N/A'` when no
record has a non-empty skills string; otherwise the first-encountered skill
of maximal frequency.  (`most_common(1)[0]` cannot fail there because the
skill stream is non-empty; the unreachable `none` arm returns `[]`.) -/
def most_common_skill (ms : List Metadata) : Str :=
  if ms.any (fun m => !m.skills.isEmpty) then
    match mostCommon1 (counterOf (allSkillsOf ms)) with
    | some p => p.1
    | none => []
  else S "N/A"

/-- The statistics dictionary (`avg_skills_per_course` is Python float
division, modelled exactly as a rational). -/
structure Stats where
  total_courses : Nat
  by_year : List (Option Str × Nat)
  by_provider : List (Str × Nat)
  avg_skills_per_course : ℚ
  unique_skills : Nat
  most_common : Str
  completion_trend : List (Option Str × Nat)
deriving DecidableEq, Repr

/-- `generate_statistics`: the empty dict `{}` returned for an empty input is
modelled as `none`; a populated statistics dict as `some`.  `by_year` is
built by the trailing loop (incremental counting in first-occurrence key
order, i.e. a `Counter`); `completion_trend` assigns each record's full-list
year count, keyed in first-occurrence order. -/
def generate_statistics (ms : List Metadata) : Option Stats :=
  if ms = [] then none
  else
    some
      { total_courses := ms.length
        by_year := counterOf (ms.map (fun m => m.year))
        by_provider := counterOf (ms.map (fun m => m.provider))
        avg_skills_per_course :=
          if ms.length ≠ 0 then
            ((ms.countP (fun m => !m.skills.isEmpty) : ℚ) / (ms.length : ℚ))
          else 0
        unique_skills := (allSkillsOf ms).dedup.length
        most_common := most_common_skill ms
        completion_trend :=
          (ms.map (fun m => m.year)).foldl
            (fun acc y => dictPut acc y (countK y (ms.map (fun m => m.year)))) [] }

/-! ### Counter lemmas -/

theorem countK_append {α : Type} [DecidableEq α] (s : α) (l1 l2 : List α) :
    countK s (l1 ++ l2) = countK s l1 + countK s l2 := by
  induction l1 with
  | nil => simp [countK]
  | cons c rest ih => simp [countK, ih]; omega

theorem countK_eq_zero_of_not_mem {α : Type} [DecidableEq α] {s : α} {l : List α}
    (h : s ∉ l) : countK s l = 0 := by
  induction l with
  | nil => rfl
  | cons c rest ih =>
    rw [countK, ih (fun hc => h (List.mem_cons_of_mem _ hc))]
    have hne : c ≠ s := fun he => h (by rw [he]; exact List.mem_cons_self _ _)
    rw [if_neg hne]

theorem firstIdx_append_left {α : Type} [DecidableEq α] {s : α} {l : List α}
    (h : s ∈ l) (l' : List α) : firstIdx s (l ++ l') = firstIdx s l := by
  induction l with
  | nil => exact absurd h (by simp)
  | cons c rest ih =>
    by_cases hc : c = s
    · simp [firstIdx, hc]
    · rcases List.mem_cons.mp h with h1 | h1
      · exact absurd h1.symm hc
      · simp [firstIdx, hc, ih h1]

theorem firstIdx_lt_length {α : Type} [DecidableEq α] {s : α} {l : List α}
    (h : s ∈ l) : firstIdx s l < l.length := by
  induction l with
  | nil => exact absurd h (by simp)
  | cons c rest ih =>
    by_cases hc : c = s
    · simp [firstIdx, hc]
    · rcases List.mem_cons.mp h with h1 | h1
      · exact absurd h1.symm hc
      · simp only [firstIdx, if_neg hc, List.length_cons]
        exact Nat.succ_lt_succ (ih h1)

theorem firstIdx_append_fresh {α : Type} [DecidableEq α] {s : α} {l : List α}
    (h : s ∉ l) : firstIdx s (l ++ [s]) = l.length := by
  induction l with
  | nil => simp [firstIdx]
  | cons c rest ih =>
    have hc : c ≠ s := fun he => h (he ▸ List.mem_cons_self _ _)
    have h2 : s ∉ rest := fun hm => h (List.mem_cons_of_mem _ hm)
    calc firstIdx s ((c :: rest) ++ [s])
        = firstIdx s (c :: (rest ++ [s])) := by rw [List.cons_append]
      _ = firstIdx s (rest ++ [s]) + 1 := by rw [firstIdx, if_neg hc]
      _ = rest.length + 1 := by rw [ih h2]
      _ = (c :: rest).length := by simp

theorem bumpKey_keys {α : Type} [DecidableEq α] (c : List (α × Nat)) (s : α) :
    (bumpKey c s).map Prod.fst =
      if s ∈ c.map Prod.fst then c.map Prod.fst else c.map Prod.fst ++ [s] := by
  induction c with
  | nil => simp [bumpKey]
  | cons p rest ih =>
    obtain ⟨t, n⟩ := p
    by_cases ht : t = s
    · simp [bumpKey, ht]
    · simp only [bumpKey, if_neg ht, List.map_cons, ih]
      by_cases hm : s ∈ rest.map Prod.fst
      · rw [if_pos hm, if_pos (List.mem_cons_of_mem _ hm)]
      · rw [if_neg hm, if_neg (by
          intro hc
          rcases List.mem_cons.mp hc with h1 | h1
          · exact ht h1.symm
          · exact hm h1)]
        rfl

theorem bumpKey_keyCnt {α : Type} [DecidableEq α] (c : List (α × Nat)) (s t : α) :
    keyCnt (bumpKey c s) t = if t = s then keyCnt c s + 1 else keyCnt c t := by
  induction c with
  | nil =>
    simp only [bumpKey, keyCnt]
    split_ifs with h1 h2 h2 <;> simp_all [eq_comm]
  | cons p rest ih =>
    obtain ⟨u, n⟩ := p
    simp only [bumpKey, keyCnt]
    split_ifs with h1 h2 h3 h4 h5 <;> simp_all [keyCnt, eq_comm]

theorem keyCnt_of_mem {α : Type} [DecidableEq α] {c : List (α × Nat)}
    (hnd : (c.map Prod.fst).Nodup) {p : α × Nat} (hp : p ∈ c) : keyCnt c p.1 = p.2 := by
  induction c with
  | nil => exact absurd hp (by simp)
  | cons q rest ih =>
    obtain ⟨t, n⟩ := q
    rcases List.mem_cons.mp hp with h1 | h1
    · subst h1
      simp [keyCnt]
    · have ht : t ≠ p.1 := by
        intro he
        have : p.1 ∈ rest.map Prod.fst := List.mem_map_of_mem Prod.fst h1
        rw [← he] at this
        exact (List.nodup_cons.mp (by simpa using hnd)).1 this
      rw [keyCnt, if_neg ht]
      exact ih (List.nodup_cons.mp (by simpa using hnd)).2 h1

/-- The `Counter` invariant: keys are exactly the elements seen, in
first-occurrence order, without duplicates, and each key carries its count. -/
theorem counterOf_inv {α : Type} [DecidableEq α] (L : List α) :
    (∀ s, s ∈ (counterOf L).map Prod.fst ↔ s ∈ L)
    ∧ (∀ s, keyCnt (counterOf L) s = countK s L)
    ∧ ((counterOf L).map Prod.fst).Nodup
    ∧ ((counterOf L).map Prod.fst).Pairwise (fun a b => firstIdx a L < firstIdx b L) := by
  induction L using List.reverseRecOn with
  | nil => exact ⟨by simp [counterOf], by simp [counterOf, keyCnt, countK], by simp [counterOf],
      by simp [counterOf]⟩
  | append_singleton L s ih =>
    obtain ⟨ihMem, ihCnt, ihNodup, ihPw⟩ := ih
    have hstep : counterOf (L ++ [s]) = bumpKey (counterOf L) s := by
      unfold counterOf
      rw [List.foldl_append]
      rfl
    refine ⟨?_, ?_, ?_, ?_⟩
    · intro t
      rw [hstep, bumpKey_keys]
      by_cases hm : s ∈ (counterOf L).map Prod.fst
      · rw [if_pos hm]
        rw [ihMem t]
        constructor
        · exact fun h => List.mem_append_left _ h
        · intro h
          rcases List.mem_append.mp h with h1 | h1
          · exact h1
          · simp only [List.mem_singleton] at h1
            exact h1 ▸ (ihMem s).mp hm
      · rw [if_neg hm]
        simp only [List.mem_append, List.mem_singleton, ihMem t]
    · intro t
      rw [hstep, bumpKey_keyCnt, countK_append]
      by_cases hts : t = s
      · subst hts
        simp [countK, ihCnt]
      · have hst : ¬s = t := fun h => hts h.symm
        simp [countK, hts, hst, ihCnt]
    · rw [hstep, bumpKey_keys]
      by_cases hm : s ∈ (counterOf L).map Prod.fst
      · rw [if_pos hm]; exact ihNodup
      · rw [if_neg hm]
        rw [List.nodup_append]
        exact ⟨ihNodup, List.nodup_singleton s, by
          intro a ha hb
          simp only [List.mem_singleton] at hb
          exact hm (hb ▸ ha)⟩
    · rw [hstep, bumpKey_keys]
      have hrew : ∀ a b, a ∈ (counterOf L).map Prod.fst → b ∈ (counterOf L).map Prod.fst →
          firstIdx a L < firstIdx b L →
          firstIdx a (L ++ [s]) < firstIdx b (L ++ [s]) := by
        intro a b ha hb hab
        rw [firstIdx_append_left ((ihMem a).mp ha), firstIdx_append_left ((ihMem b).mp hb)]
        exact hab
      by_cases hm : s ∈ (counterOf L).map Prod.fst
      · rw [if_pos hm]
        exact List.Pairwise.imp_of_mem (fun {a b} ha hb h => hrew a b ha hb h) ihPw
      · rw [if_neg hm]
        rw [List.pairwise_append]
        refine ⟨List.Pairwise.imp_of_mem (fun {a b} ha hb h => hrew a b ha hb h) ihPw,
          List.pairwise_singleton _ _, ?_⟩
        intro a ha b hb
        simp only [List.mem_singleton] at hb
        subst hb
        have hsL : b ∉ L := fun h => hm ((ihMem b).mpr h)
        rw [firstIdx_append_left ((ihMem a).mp ha), firstIdx_append_fresh hsL]
        exact firstIdx_lt_length ((ihMem a).mp ha)

/-- `mostCommon1` returns an entry of maximal count, and every entry before
it has a strictly smaller count (first-of-the-maxima in insertion order). -/
theorem mostCommon1_spec {α : Type} (c : List (α × Nat)) (h : c ≠ []) :
    ∃ p pre post, mostCommon1 c = some p ∧ c = pre ++ p :: post
      ∧ (∀ q ∈ c, q.2 ≤ p.2) ∧ (∀ q ∈ pre, q.2 < p.2) := by
  induction c with
  | nil => exact absurd rfl h
  | cons a rest ih =>
    obtain ⟨s, n⟩ := a
    cases hrest : rest with
    | nil =>
      refine ⟨(s, n), [], [], by simp [mostCommon1], by simp, ?_, by simp⟩
      intro q hq
      simp only [List.mem_singleton] at hq
      simp [hq]
    | cons b r =>
      rw [← hrest]
      have hrne : rest ≠ [] := by rw [hrest]; simp
      obtain ⟨⟨pt, pm⟩, pre, post, hmc, hsplit, hmax, hpre⟩ := ih hrne
      by_cases hlt : n < pm
      · refine ⟨(pt, pm), (s, n) :: pre, post, ?_, by rw [hsplit]; rfl, ?_, ?_⟩
        · rw [mostCommon1]
          cases hr2 : rest with
          | nil => rw [hr2] at hrne; exact absurd rfl hrne
          | cons x y =>
            rw [← hr2, hmc]
            show (if n < pm then some (pt, pm) else some (s, n)) = some (pt, pm)
            rw [if_pos hlt]
        · intro q hq
          rcases List.mem_cons.mp hq with h1 | h1
          · rw [h1]; exact Nat.le_of_lt hlt
          · exact hmax q h1
        · intro q hq
          rcases List.mem_cons.mp hq with h1 | h1
          · rw [h1]; exact hlt
          · exact hpre q h1
      · refine ⟨(s, n), [], rest, ?_, by simp, ?_, by simp⟩
        · rw [mostCommon1]
          cases hr2 : rest with
          | nil => rw [hr2] at hrne; exact absurd rfl hrne
          | cons x y =>
            rw [← hr2, hmc]
            show (if n < pm then some (pt, pm) else some (s, n)) = some (s, n)
            rw [if_neg hlt]
        · intro q hq
          rcases List.mem_cons.mp hq with h1 | h1
          · rw [h1]
          · exact Nat.le_trans (hmax q h1) (Nat.le_of_not_lt hlt)

/-- A record carrying only a skills string (for concrete statistics tests). -/
def mkSkills (sk : Str) : Metadata := ⟨[], [], sk, none, [], [], [], [], [], []⟩

/-- C7: `most_common_skill` over skills `["A","B","A"]` is `"A"`; it is the
`"N/A"` sentinel exactly when no record has a non-empty skills string; and
otherwise it is a skill of maximal frequency across all records' split skill
strings, ties resolved in favor of the first-encountered skill. -/
theorem most_common_skill_correct :
    most_common_skill [mkSkills (S "A"), mkSkills (S "B"), mkSkills (S "A")] = S "A"
    ∧ (∀ ms : List Metadata, (∀ m ∈ ms, m.skills = []) → most_common_skill ms = S "N/A")
    ∧ (∀ ms : List Metadata, (∃ m ∈ ms, m.skills ≠ []) →
        ∃ s, most_common_skill ms = s ∧ s ∈ allSkillsOf ms
          ∧ (∀ t ∈ allSkillsOf ms, countK t (allSkillsOf ms) ≤ countK s (allSkillsOf ms))
          ∧ (∀ t ∈ allSkillsOf ms, countK t (allSkillsOf ms) = countK s (allSkillsOf ms) →
              firstIdx s (allSkillsOf ms) ≤ firstIdx t (allSkillsOf ms))) := by
  refine ⟨by decide, ?_, ?_⟩
  · intro ms hall
    have hany : ms.any (fun m => !m.skills.isEmpty) = false := by
      rw [List.any_eq_false]
      intro m hm
      simp [hall m hm]
    rw [most_common_skill, if_neg (by rw [hany]; exact Bool.false_ne_true)]
  · intro ms hex
    obtain ⟨m, hm, hsk⟩ := hex
    obtain ⟨x, hx⟩ := List.exists_mem_of_ne_nil _ (splitCS_ne_nil m.skills)
    have hxL : x ∈ allSkillsOf ms := by
      rw [allSkillsOf, List.mem_flatMap]
      exact ⟨m, hm, by rw [if_neg hsk]; exact hx⟩
    have hLne : allSkillsOf ms ≠ [] := List.ne_nil_of_mem hxL
    obtain ⟨hMem, hCnt, hNodup, hPw⟩ := counterOf_inv (allSkillsOf ms)
    have hcne : counterOf (allSkillsOf ms) ≠ [] := by
      intro hc
      have := (hMem x).mpr hxL
      rw [hc] at this
      exact absurd this (by simp)
    obtain ⟨p, pre, post, hmc, hsplit, hmax, hpre⟩ := mostCommon1_spec _ hcne
    have hpc : p ∈ counterOf (allSkillsOf ms) := by
      rw [hsplit]
      exact List.mem_append.mpr (Or.inr (List.mem_cons_self _ _))
    have hpkey : p.1 ∈ (counterOf (allSkillsOf ms)).map Prod.fst :=
      List.mem_map_of_mem Prod.fst hpc
    have hpL : p.1 ∈ allSkillsOf ms := (hMem p.1).mp hpkey
    have hpcount : countK p.1 (allSkillsOf ms) = p.2 := by
      rw [← hCnt p.1]
      exact keyCnt_of_mem hNodup hpc
    have hany : ms.any (fun m => !m.skills.isEmpty) = true := by
      rw [List.any_eq_true]
      exact ⟨m, hm, by simpa [List.isEmpty_iff] using hsk⟩
    have hkeyPair : ∀ t ∈ allSkillsOf ms,
        ∃ q ∈ counterOf (allSkillsOf ms), q.1 = t ∧ q.2 = countK t (allSkillsOf ms) := by
      intro t ht
      obtain ⟨q, hq, hq1⟩ := List.mem_map.mp ((hMem t).mpr ht)
      refine ⟨q, hq, hq1, ?_⟩
      rw [← hq1, ← hCnt q.1]
      exact (keyCnt_of_mem hNodup hq).symm
    refine ⟨p.1, ?_, hpL, ?_, ?_⟩
    · rw [most_common_skill, if_pos hany, hmc]
    · intro t ht
      obtain ⟨q, hq, hq1, hq2⟩ := hkeyPair t ht
      rw [← hq2, hpcount]
      exact hmax q hq
    · intro t ht htc
      obtain ⟨q, hq, hq1, hq2⟩ := hkeyPair t ht
      have hq2p : q.2 = p.2 := by rw [hq2, htc, hpcount]
      rw [hsplit] at hq
      rcases List.mem_append.mp hq with h1 | h1
      · exact absurd hq2p (Nat.ne_of_lt (hpre q h1))
      · rcases List.mem_cons.mp h1 with h2 | h2
        · rw [← hq1, h2]
        · have hpw' := hPw
          rw [hsplit, List.map_append, List.map_cons] at hpw'
          have hrel := ((List.pairwise_cons.mp (List.pairwise_append.mp hpw').2.1).1)
          have := hrel q.1 (List.mem_map_of_mem Prod.fst h2)
          rw [hq1] at this
          exact Nat.le_of_lt this

/-- C7 witness: the general branch applied to one record with skills `"A"`. -/
theorem most_common_skill_correct_witness :
    ∃ s, most_common_skill [mkSkills (S "A")] = s ∧ s ∈ allSkillsOf [mkSkills (S "A")]
      ∧ (∀ t ∈ allSkillsOf [mkSkills (S "A")],
          countK t (allSkillsOf [mkSkills (S "A")]) ≤ countK s (allSkillsOf [mkSkills (S "A")]))
      ∧ (∀ t ∈ allSkillsOf [mkSkills (S "A")],
          countK t (allSkillsOf [mkSkills (S "A")]) = countK s (allSkillsOf [mkSkills (S "A")]) →
          firstIdx s (allSkillsOf [mkSkills (S "A")])
            ≤ firstIdx t (allSkillsOf [mkSkills (S "A")])) :=
  most_common_skill_correct.2.2 [mkSkills (S "A")]
    ⟨mkSkills (S "A"), List.mem_cons_self _ _, by decide⟩

/-- C9: `generate_statistics` on the empty record list returns the empty
mapping (`none` in this model), not a populated zero statistics record; it
returns a populated record exactly for non-empty inputs. -/
theorem generate_statistics_empty :
    generate_statistics ([] : List Metadata) = none
    ∧ ∀ ms : List Metadata, (generate_statistics ms).isSome = true ↔ ms ≠ [] := by
  refine ⟨rfl, ?_⟩
  intro ms
  by_cases h : ms = []
  · subst h; simp [generate_statistics]
  · simp [generate_statistics, h]

/-! ### Provider layout matchers -/

/-- Case-insensitive literal match (`pat` given lowercased); returns the rest. -/
def litCIP (pat l : Str) : Option Str :=
  match pat, l with
  | [], l => some l
  | _ :: _, [] => none
  | p :: ps, c :: rest => if lowerC c = p then litCIP ps rest else none

/-- A lazy group under `re.DOTALL`: extend one character at a time, checking
the stop continuation first (shortest match); the accumulator is reversed. -/
def lazyLoop (stop : Str → Bool) (acc l : Str) : Option Str :=
  if stop l then some acc.reverse
  else
    match l with
    | [] => none
    | c :: rest => lazyLoop stop (c :: acc) rest

/-- A lazy group without `re.DOTALL`: as `lazyLoop`, but `.` cannot consume a
newline, so reaching one without the stop matching fails the attempt. -/
def lazyLoopDot (stop : Str → Bool) (acc l : Str) : Option Str :=
  if stop l then some acc.reverse
  else
    match l with
    | [] => none
    | c :: rest => if c = '\n' then none else lazyLoopDot stop (c :: acc) rest

/-- `re.search`: try the pattern at every position, leftmost first. -/
def searchWith {α : Type} (tryAt : Str → Option α) (l : Str) : Option α :=
  match tryAt l with
  | some g => some g
  | none =>
    match l with
    | [] => none
    | _ :: rest => searchWith tryAt rest

/-- Greedy `\s+` backtracking: try consuming `n` whitespace characters, then
`n-1`, ..., down to 1, running the (lazy, non-empty) group after them. -/
def wsDown (stop : Str → Bool) (n : Nat) (r : Str) : Option Str :=
  match n with
  | 0 => none
  | n + 1 =>
    match
      (match r.drop (n + 1) with
       | [] => none
       | c :: rest => lazyLoop stop [c] rest) with
    | some g => some g
    | none => wsDown stop n r

/-- `\d{1,2}` followed by a required literal: succeeds exactly when the
maximal digit run has length 1 or 2 (a longer run defeats both backtracking
attempts since the follow-up literal is never a digit). -/
def digits12 (l : Str) : Option (Str × Str) :=
  let ds := l.takeWhile isDigitC
  if ds.length = 1 ∨ ds.length = 2 then some (ds, l.drop ds.length) else none

/-- udemy title, `completed the (.+?)(?:online course)? on` (CI, DOTALL):
the continuation tries the optional `online course` first, then ` on`. -/
def udemyTitleStop (l : Str) : Bool :=
  (match litCIP (S "online course") l with
   | some r1 => (litCIP (S " on") r1).isSome
   | none => false)
  || (litCIP (S " on") l).isSome

def udemyTitleAt (l : Str) : Option Str :=
  match litCIP (S "completed the ") l with
  | none => none
  | some r =>
    match r with
    | [] => none
    | c :: r2 => lazyLoop udemyTitleStop [c] r2

def udemyTitleSearch (l : Str) : Option Str := searchWith udemyTitleAt l

/-- udemy date, `on (.+?)(?:Instructor|Certificate|UC-)` (CI, DOTALL). -/
def udemyDateStop (l : Str) : Bool :=
  (litCIP (S "instructor") l).isSome || (litCIP (S "certificate") l).isSome
    || (litCIP (S "uc-") l).isSome

def udemyDateAt (l : Str) : Option Str :=
  match litCIP (S "on ") l with
  | none => none
  | some r =>
    match r with
    | [] => none
    | c :: r2 => lazyLoop udemyDateStop [c] r2

def udemyDateSearch (l : Str) : Option Str := searchWith udemyDateAt l

def isUpDigC (c : Char) : Bool := isUpperC c || isDigitC c

/-- udemy certificate id, `Certificate no\. (UC-[A-Z0-9]+)` then
`Certificate url ude\.my/(UC-[A-Z0-9]+)` (case-sensitive). -/
def udemyCert1At (l : Str) : Option Str :=
  match litP (S "Certificate no. UC-") l with
  | none => none
  | some r =>
    let run := r.takeWhile isUpDigC
    if run = [] then none else some (S "UC-" ++ run)

def udemyCert2At (l : Str) : Option Str :=
  match litP (S "Certificate url ude.my/UC-") l with
  | none => none
  | some r =>
    let run := r.takeWhile isUpDigC
    if run = [] then none else some (S "UC-" ++ run)

def udemyCertSearch (l : Str) : Option Str :=
  match searchWith udemyCert1At l with
  | some g => some g
  | none => searchWith udemyCert2At l

/-- udemy instructor, `Instructor: (.+?)(?:\n|$)` (CI). -/
def toEndStop (l : Str) : Bool := l.isEmpty || l.head? = some '\n'

def udemyInstrAt (l : Str) : Option Str :=
  match litCIP (S "instructor: ") l with
  | none => none
  | some r =>
    match r with
    | [] => none
    | c :: r2 => lazyLoopDot toEndStop [c] r2

def udemyInstrSearch (l : Str) : Option Str := searchWith udemyInstrAt l

/-- `(\d{4})`: the first run of four digits. -/
def year4At (l : Str) : Option Str :=
  match takeCount isDigitC 4 l with
  | some (ds, _) => some ds
  | none => none

def yearSearch (l : Str) : Option Str := searchWith year4At l

/-- cybrary title, `provided by Cybrary in\s+(.+?)(?:\n|Date)` (CI, DOTALL). -/
def cybTitleStop (l : Str) : Bool :=
  l.head? = some '\n' || (litCIP (S "date") l).isSome

def cybTitleAt (l : Str) : Option Str :=
  match litCIP (S "provided by cybrary in") l with
  | none => none
  | some r => wsDown cybTitleStop (r.takeWhile isSpaceC).length r

def cybTitleSearch (l : Str) : Option Str := searchWith cybTitleAt l

/-- cybrary date alternative 1,
`May \d{1,2}, \d{4} \d{1,2}:\d{2}[AP]M UTC` (note: the literal month `May`
only).  Written with `Option.bind`; each step consumes the next piece of the
pattern. -/
def cybAlt1 (l : Str) : Option Str :=
  (litP (S "May ") l).bind fun r1 =>
  (digits12 r1).bind fun dayr =>
  (litP (S ", ") dayr.2).bind fun r3 =>
  (takeCount isDigitC 4 r3).bind fun yrr =>
  (litP (S " ") yrr.2).bind fun r5 =>
  (digits12 r5).bind fun hrr =>
  (litP (S ":") hrr.2).bind fun r7 =>
  (takeCount isDigitC 2 r7).bind fun mir =>
  mir.2.head?.bind fun ap =>
  if ap = 'A' ∨ ap = 'P' then
    (litP (S "M UTC") mir.2.tail).map fun _ =>
      S "May " ++ dayr.1 ++ S ", " ++ yrr.1 ++ S " " ++ hrr.1 ++ S ":" ++ mir.1
        ++ [ap] ++ S "M UTC"
  else none

/-- cybrary date alternative 2, `\d{2}/\d{2}/\d{4}`. -/
def cybAlt2 (l : Str) : Option Str :=
  (takeCount isDigitC 2 l).bind fun ar =>
  (litP (S "/") ar.2).bind fun r2 =>
  (takeCount isDigitC 2 r2).bind fun br =>
  (litP (S "/") br.2).bind fun r4 =>
  (takeCount isDigitC 4 r4).map fun yr =>
    ar.1 ++ S "/" ++ br.1 ++ S "/" ++ yr.1

def cybDateAt (l : Str) : Option Str :=
  match cybAlt1 l with
  | some m => some m
  | none => cybAlt2 l

def cybDateSearch (l : Str) : Option Str := searchWith cybDateAt l

def isHexLC (c : Char) : Bool := isDigitC c || decide ('a' ≤ c ∧ c ≤ 'f')

/-- cybrary certificate id, `C-([a-f0-9]{8}-[a-f0-9]{6})`; the group excludes
the leading `C-`. -/
def cybCertAt (l : Str) : Option Str :=
  match litP (S "C-") l with
  | none => none
  | some r =>
    match takeCount isHexLC 8 r with
    | none => none
    | some (h8, r1) =>
      match litP (S "-") r1 with
      | none => none
      | some r2 =>
        match takeCount isHexLC 6 r2 with
        | none => none
        | some (h6, _) => some (h8 ++ S "-" ++ h6)

def cybCertSearch (l : Str) : Option Str := searchWith cybCertAt l

/-- deeplearningai title, `congratulations on completing (.+?)(?=\.|!|\n)`
(CI, no DOTALL). -/
def dlaiTitleStop (l : Str) : Bool :=
  match l with
  | c :: _ => c = '.' || c = '!' || c = '\n'
  | [] => false

def dlaiTitleAt (l : Str) : Option Str :=
  match litCIP (S "congratulations on completing ") l with
  | none => none
  | some r =>
    match r with
    | [] => none
    | c :: r2 => lazyLoopDot dlaiTitleStop [c] r2

def dlaiTitleSearch (l : Str) : Option Str := searchWith dlaiTitleAt l

/-- `(\d{4}-\d{2}-\d{2})` (used on the deeplearningai filename). -/
def isoDateAt (l : Str) : Option Str :=
  match takeCount isDigitC 4 l with
  | none => none
  | some (a, r1) =>
    match litP (S "-") r1 with
    | none => none
    | some r2 =>
      match takeCount isDigitC 2 r2 with
      | none => none
      | some (b, r3) =>
        match litP (S "-") r3 with
        | none => none
        | some r4 =>
          match takeCount isDigitC 2 r4 with
          | none => none
          | some (c, _) => some (a ++ S "-" ++ b ++ S "-" ++ c)

def isoDateSearch (l : Str) : Option Str := searchWith isoDateAt l

/-- The greedy end position of a `re.MULTILINE` skills-line match
`^([A-Z][a-zA-Z\s]+)$`: the largest `k ≤ n` (and `k ≥ 1`) such that position
`k` of `rest` is the end of the text or a newline. -/
def dlaiPickEnd (rest : Str) (n : Nat) : Option Nat :=
  match n with
  | 0 => none
  | n + 1 =>
    if rest.drop (n + 1) = [] ∨ (rest.drop (n + 1)).head? = some '\n' then some (n + 1)
    else dlaiPickEnd rest n

/-- One anchored attempt of `^([A-Z][a-zA-Z\s]+)$` (MULTILINE): an uppercase
letter, then a greedy run of letters/whitespace cut back to a `$` position. -/
def dlaiMatchAt (l : Str) : Option (Str × Str) :=
  match l with
  | [] => none
  | c :: rest =>
    if isUpperC c then
      match dlaiPickEnd rest (rest.takeWhile (fun d => isAlphaC d || isSpaceC d)).length with
      | some k => some (c :: rest.take k, rest.drop k)
      | none => none
    else none

/-- One step of the `re.findall` scan for the skills pattern: `^` matches at
the start and after each newline; matches are non-overlapping; after a
failed or impossible position the scan advances one character. -/
def dlaiStepA (go : Option Char → Str → List Str) (prev : Option Char) (l : Str) :
    List Str :=
  if prev = none ∨ prev = some '\n' then
    match dlaiMatchAt l with
    | some mr => mr.1 :: go mr.1.getLast? mr.2
    | none =>
      match l with
      | [] => []
      | c :: rest => go (some c) rest
  else
    match l with
    | [] => []
    | c :: rest => go (some c) rest

/-- The full scan; the fuel only bounds the recursion (every step consumes
at least one character, so `l.length + 1` steps always suffice). -/
def dlaiScanF : Nat → Option Char → Str → List Str
  | 0 => fun _ _ => []
  | fuel + 1 => fun prev l => dlaiStepA (dlaiScanF fuel) prev l

def dlaiFindall (l : Str) : List Str := dlaiScanF (l.length + 1) none l

/-- linkedinlearning title (on the basename),
`CertificateOfCompletion_(.*?)(?:_|\.pdf)` (CI): the group may be empty. -/
def liTitleStop (l : Str) : Bool :=
  l.head? = some '_' || (litCIP (S ".pdf") l).isSome

def liTitleAt (l : Str) : Option Str :=
  match litCIP (S "certificateofcompletion_") l with
  | none => none
  | some r => lazyLoopDot liTitleStop [] r

def liTitleSearch (l : Str) : Option Str := searchWith liTitleAt l

/-- linkedinlearning date, `completed by (\w+\s+\d{1,2},\s+\d{4})`
(case-sensitive); the group is the whole date span. -/
def liDateAt (l : Str) : Option Str :=
  match litP (S "completed by ") l with
  | none => none
  | some r =>
    let w := r.takeWhile isWordC
    if w = [] then none
    else
      let r1 := r.drop w.length
      let sp := r1.takeWhile isSpaceC
      if sp = [] then none
      else
        let r2 := r1.drop sp.length
        match digits12 r2 with
        | none => none
        | some (ds, r3) =>
          match litP (S ",") r3 with
          | none => none
          | some r4 =>
            let sp2 := r4.takeWhile isSpaceC
            if sp2 = [] then none
            else
              let r5 := r4.drop sp2.length
              match takeCount isDigitC 4 r5 with
              | none => none
              | some (ys, _) => some (w ++ sp ++ ds ++ S "," ++ sp2 ++ ys)

def liDateSearch (l : Str) : Option Str := searchWith liDateAt l

/-- linkedinlearning skills,
`Top skills covered\s+(.+?)(?:Certificate ID|\n|$)` (DOTALL). -/
def liSkillsStop (l : Str) : Bool :=
  (litP (S "Certificate ID") l).isSome || l.head? = some '\n' || l.isEmpty

def liSkillsAt (l : Str) : Option Str :=
  match litP (S "Top skills covered") l with
  | none => none
  | some r => wsDown liSkillsStop (r.takeWhile isSpaceC).length r

def liSkillsSearch (l : Str) : Option Str := searchWith liSkillsAt l

/-- linkedinlearning certificate id, `Certificate ID:\s*(\w+)`. -/
def liCertAt (l : Str) : Option Str :=
  match litP (S "Certificate ID:") l with
  | none => none
  | some r =>
    let w := (r.dropWhile isSpaceC).takeWhile isWordC
    if w = [] then none else some w

def liCertSearch (l : Str) : Option Str := searchWith liCertAt l

/-! ### `urllib.parse.quote` -/

def hexDigU (n : Nat) : Char := if n < 10 then Char.ofNat (48 + n) else Char.ofNat (55 + n)

/-- UTF-8 encoding of one scalar value. -/
def utf8Bytes (c : Char) : List Nat :=
  let n := c.toNat
  if n < 128 then [n]
  else if n < 2048 then [192 + n / 64, 128 + n % 64]
  else if n < 65536 then [224 + n / 4096, 128 + (n / 64) % 64, 128 + n % 64]
  else [240 + n / 262144, 128 + (n / 4096) % 64, 128 + (n / 64) % 64, 128 + n % 64]

/-- `quote(s)` with the default `safe='/'`: ASCII letters, digits, `_.-~`
and `/` kept, everything else percent-encoded per UTF-8 byte. -/
def quoteSafeC (c : Char) : Bool :=
  isAlnumC c || c = '_' || c = '.' || c = '-' || c = '~' || c = '/'

def pquote (l : Str) : Str :=
  l.flatMap fun c =>
    if quoteSafeC c then [c]
    else (utf8Bytes c).flatMap fun b => ['%', hexDigU (b / 16), hexDigU (b % 16)]

/-! ### `extract_metadata` -/

/-- The per-provider matcher result: extracted fields plus the (possibly
renamed) document path. -/
structure BranchOut where
  title : Str
  completion : Str
  skills : Str
  year : Option Str
  cert_id : Str
  instructors : List Str
  path : Str
deriving DecidableEq, Repr

/-- The udemy branch of `extract_metadata` (lines 160-179). -/
def udemyBranch (fsExists : Str → Bool) (pdf_hash pdf_path text : Str) : Option BranchOut :=
  match udemyTitleSearch text, udemyDateSearch text with
  | some tg, some dg =>
    let title := stripS tg
    let completion := stripS dg
    let instructors :=
      match udemyInstrSearch text with
      | some ig => [stripS ig]
      | none => []
    let cert_id :=
      match udemyCertSearch text with
      | some cid => cid
      | none => pdf_hash.take 8
    some ⟨title, completion, [], yearSearch completion, cert_id, instructors,
      (rename_file fsExists pdf_path completion title).ret⟩
  | _, _ => none

/-- The cybrary branch (lines 180-194): title, date and certificate id are
all required. -/
def cybraryBranch (pdf_path text : Str) : Option BranchOut :=
  match cybTitleSearch text, cybDateSearch text, cybCertSearch text with
  | some tg, some dg, some cg =>
    some ⟨stripS tg, stripS dg, [], yearSearch (stripS dg), cg, [], pdf_path⟩
  | _, _, _ => none

/-- The deeplearningai branch (lines 195-209): the completion date comes from
the filename; skills are the joined stripped MULTILINE matches of length
> 2. -/
def dlaiBranch (pdf_hash pdf_path text : Str) : Option BranchOut :=
  match dlaiTitleSearch text, isoDateSearch (basenameP pdf_path) with
  | some tg, some dg =>
    some ⟨stripS tg, dg,
      List.intercalate (S ", ")
        (((dlaiFindall text).map stripS).filter (fun s => s ≠ [] ∧ 2 < s.length)),
      some (dg.take 4), pdf_hash.take 8, [S "DeepLearning.AI"], pdf_path⟩
  | _, _ => none

/-- The linkedinlearning branch (lines 210-224): the title comes from the
filename (with underscores turned into spaces). -/
def linkedinBranch (pdf_hash pdf_path text : Str) : Option BranchOut :=
  match liTitleSearch (basenameP pdf_path), liDateSearch text with
  | some tg, some dg =>
    let completion := stripS dg
    some ⟨(stripS tg).map (fun c => if c = '_' then ' ' else c), completion,
      (match liSkillsSearch text with
       | some sg => stripS sg
       | none => []),
      yearSearch completion,
      (match liCertSearch text with
       | some cg => cg
       | none => pdf_hash.take 8),
      [], pdf_path⟩
  | _, _ => none

/-- The tail of `extract_metadata` (lines 228-242): the three filters, then
URL assembly and the final record. -/
def finishRecord (release_tag : Str) (test_mode : Bool) (github_page_url repo : Str)
    (filter_skill : Option (Str → Bool)) (filter_year : Option Str)
    (filter_title : Option (Str → Bool)) (fetch_urls : Bool)
    (provider_id : Str) (br : Option BranchOut) : Option Metadata :=
  match br with
  | none => none
  | some b =>
    if (match filter_skill with
        | some f => !f b.skills
        | none => false)
      || (match filter_year with
          | some fy => decide (b.year ≠ some fy)
          | none => false)
      || (match filter_title with
          | some f => !f b.title
          | none => false) then none
    else
      let course_url := if fetch_urls then generate_course_url b.title provider_id else []
      let pdf_filename := pquote (basenameP b.path)
      let pdf_url :=
        if test_mode then github_page_url ++ S "/assets/pdfs/" ++ pdf_filename
        else S "https://github.com/" ++ repo ++ S "/releases/download/" ++ release_tag
          ++ S "/" ++ pdf_filename
      some ⟨b.title, b.completion, b.skills, b.year, b.cert_id, b.instructors, [],
        course_url, pdf_url, provider_id⟩

/-- `extract_metadata`, with the document reader abstracted away: `raw` is
the concatenated page text, `pdf_hash` the file's SHA-256 hex digest, and
`fsExists` the filesystem predicate seen by `rename_file`.  The three
filters are abstract predicates standing for the user-supplied regexes. -/
def extract_metadata (fsExists : Str → Bool) (pdf_hash pdf_path release_tag : Str)
    (test_mode : Bool) (github_page_url repo : Str)
    (filter_skill : Option (Str → Bool)) (filter_year : Option Str)
    (filter_title : Option (Str → Bool)) (fetch_urls : Bool)
    (provider_id : Str) (raw : Str) : Option Metadata :=
  let text := clean_text raw
  finishRecord release_tag test_mode github_page_url repo filter_skill filter_year
    filter_title fetch_urls provider_id
    (if provider_id = S "udemy" then udemyBranch fsExists pdf_hash pdf_path text
     else if provider_id = S "cybrary" then cybraryBranch pdf_path text
     else if provider_id = S "deeplearningai" then dlaiBranch pdf_hash pdf_path text
     else if provider_id = S "linkedinlearning" then linkedinBranch pdf_hash pdf_path text
     else none)

/-! ### C1: no partially-filled record -/

theorem finishRecord_inv {tag : Str} {tm : Bool} {gurl repo : Str}
    {fsk : Option (Str → Bool)} {fy : Option Str} {ft : Option (Str → Bool)}
    {fu : Bool} {pid : Str} {br : Option BranchOut} {r : Metadata}
    (h : finishRecord tag tm gurl repo fsk fy ft fu pid br = some r) :
    ∃ b, br = some b ∧ r.title = b.title ∧ r.completion = b.completion
      ∧ r.cert_id = b.cert_id ∧ r.skills = b.skills := by
  cases br with
  | none => exact absurd h (by simp [finishRecord])
  | some b =>
    refine ⟨b, rfl, ?_⟩
    simp only [finishRecord] at h
    split at h
    · exact absurd h (by simp)
    · injection h with h2
      rw [← h2]
      exact ⟨rfl, rfl, rfl, rfl⟩

theorem udemyBranch_inv {fs : Str → Bool} {hash path text : Str} {b : BranchOut}
    (h : udemyBranch fs hash path text = some b) :
    ∃ tg dg, udemyTitleSearch text = some tg ∧ udemyDateSearch text = some dg
      ∧ b.title = stripS tg ∧ b.completion = stripS dg := by
  rw [udemyBranch] at h
  rcases htg : udemyTitleSearch text with _ | tg <;> rw [htg] at h
  · exact absurd h (by simp)
  · rcases hdg : udemyDateSearch text with _ | dg <;> rw [hdg] at h
    · exact absurd h (by simp)
    · injection h with h2
      exact ⟨tg, dg, rfl, rfl, by rw [← h2], by rw [← h2]⟩

theorem cybraryBranch_inv {path text : Str} {b : BranchOut}
    (h : cybraryBranch path text = some b) :
    ∃ tg dg cg, cybTitleSearch text = some tg ∧ cybDateSearch text = some dg
      ∧ cybCertSearch text = some cg
      ∧ b.title = stripS tg ∧ b.completion = stripS dg ∧ b.cert_id = cg := by
  rw [cybraryBranch] at h
  rcases htg : cybTitleSearch text with _ | tg <;> rw [htg] at h
  · exact absurd h (by simp)
  · rcases hdg : cybDateSearch text with _ | dg <;> rw [hdg] at h
    · exact absurd h (by simp)
    · rcases hcg : cybCertSearch text with _ | cg <;> rw [hcg] at h
      · exact absurd h (by simp)
      · injection h with h2
        exact ⟨tg, dg, cg, rfl, rfl, rfl, by rw [← h2], by rw [← h2], by rw [← h2]⟩

theorem dlaiBranch_inv {hash path text : Str} {b : BranchOut}
    (h : dlaiBranch hash path text = some b) :
    ∃ tg dg, dlaiTitleSearch text = some tg ∧ isoDateSearch (basenameP path) = some dg
      ∧ b.title = stripS tg ∧ b.completion = dg
      ∧ b.skills = List.intercalate (S ", ")
          (((dlaiFindall text).map stripS).filter (fun s => s ≠ [] ∧ 2 < s.length)) := by
  rw [dlaiBranch] at h
  rcases htg : dlaiTitleSearch text with _ | tg <;> rw [htg] at h
  · exact absurd h (by simp)
  · rcases hdg : isoDateSearch (basenameP path) with _ | dg <;> rw [hdg] at h
    · exact absurd h (by simp)
    · injection h with h2
      exact ⟨tg, dg, rfl, rfl, by rw [← h2], by rw [← h2], by rw [← h2]⟩

theorem linkedinBranch_inv {hash path text : Str} {b : BranchOut}
    (h : linkedinBranch hash path text = some b) :
    ∃ tg dg, liTitleSearch (basenameP path) = some tg ∧ liDateSearch text = some dg
      ∧ b.title = (stripS tg).map (fun c => if c = '_' then ' ' else c)
      ∧ b.completion = stripS dg := by
  rw [linkedinBranch] at h
  rcases htg : liTitleSearch (basenameP path) with _ | tg <;> rw [htg] at h
  · exact absurd h (by simp)
  · rcases hdg : liDateSearch text with _ | dg <;> rw [hdg] at h
    · exact absurd h (by simp)
    · injection h with h2
      exact ⟨tg, dg, rfl, rfl, by rw [← h2], by rw [← h2]⟩

/-- C1: for each provider, `extract_metadata` emits a record only when every
required pattern matched, and the record's required fields are exactly the
matched values: udemy and linkedinlearning need title and date; cybrary
needs title, date and certificate id; deeplearningai needs title and a
filename date.  No partially-filled record is ever emitted. -/
theorem extract_metadata_no_partial_record (fs : Str → Bool)
    (hash path tag gurl repo : Str) (tm fu : Bool) (fsk : Option (Str → Bool))
    (fy : Option Str) (ft : Option (Str → Bool)) (raw : Str) :
    (∀ r, extract_metadata fs hash path tag tm gurl repo fsk fy ft fu (S "udemy") raw
        = some r →
      ∃ tg dg, udemyTitleSearch (clean_text raw) = some tg
        ∧ udemyDateSearch (clean_text raw) = some dg
        ∧ r.title = stripS tg ∧ r.completion = stripS dg)
    ∧ (∀ r, extract_metadata fs hash path tag tm gurl repo fsk fy ft fu (S "cybrary") raw
        = some r →
      ∃ tg dg cg, cybTitleSearch (clean_text raw) = some tg
        ∧ cybDateSearch (clean_text raw) = some dg
        ∧ cybCertSearch (clean_text raw) = some cg
        ∧ r.title = stripS tg ∧ r.completion = stripS dg ∧ r.cert_id = cg)
    ∧ (∀ r, extract_metadata fs hash path tag tm gurl repo fsk fy ft fu
          (S "deeplearningai") raw = some r →
      ∃ tg dg, dlaiTitleSearch (clean_text raw) = some tg
        ∧ isoDateSearch (basenameP path) = some dg
        ∧ r.title = stripS tg ∧ r.completion = dg)
    ∧ (∀ r, extract_metadata fs hash path tag tm gurl repo fsk fy ft fu
          (S "linkedinlearning") raw = some r →
      ∃ tg dg, liTitleSearch (basenameP path) = some tg
        ∧ liDateSearch (clean_text raw) = some dg
        ∧ r.title = (stripS tg).map (fun c => if c = '_' then ' ' else c)
        ∧ r.completion = stripS dg) := by
  refine ⟨?_, ?_, ?_, ?_⟩
  · intro r h
    rw [extract_metadata, if_pos rfl] at h
    obtain ⟨b, hb, hbt, hbc, _, _⟩ := finishRecord_inv h
    obtain ⟨tg, dg, htg, hdg, hbt2, hbc2⟩ := udemyBranch_inv hb
    exact ⟨tg, dg, htg, hdg, by rw [hbt, hbt2], by rw [hbc, hbc2]⟩
  · intro r h
    rw [extract_metadata, if_neg (by decide), if_pos rfl] at h
    obtain ⟨b, hb, hbt, hbc, hbid, _⟩ := finishRecord_inv h
    obtain ⟨tg, dg, cg, htg, hdg, hcg, hbt2, hbc2, hbid2⟩ := cybraryBranch_inv hb
    exact ⟨tg, dg, cg, htg, hdg, hcg, by rw [hbt, hbt2], by rw [hbc, hbc2],
      by rw [hbid, hbid2]⟩
  · intro r h
    rw [extract_metadata, if_neg (by decide), if_neg (by decide), if_pos rfl] at h
    obtain ⟨b, hb, hbt, hbc, _, _⟩ := finishRecord_inv h
    obtain ⟨tg, dg, htg, hdg, hbt2, hbc2, _⟩ := dlaiBranch_inv hb
    exact ⟨tg, dg, htg, hdg, by rw [hbt, hbt2], by rw [hbc, hbc2]⟩
  · intro r h
    rw [extract_metadata, if_neg (by decide), if_neg (by decide), if_neg (by decide),
      if_pos rfl] at h
    obtain ⟨b, hb, hbt, hbc, _, _⟩ := finishRecord_inv h
    obtain ⟨tg, dg, htg, hdg, hbt2, hbc2⟩ := linkedinBranch_inv hb
    exact ⟨tg, dg, htg, hdg, by rw [hbt, hbt2], by rw [hbc, hbc2]⟩

/-- A demonstration udemy page text (already in normalized form). -/
def rawU : Str :=
  S "completed the AI Basics on May 1, 2024 Instructor: Jane Certificate no. UC-XY12"

/-- The record `extract_metadata` produces for `rawU` in test mode. -/
def recU : Metadata :=
  ⟨S "AI Basics", S "May 1, 2024", [], some (S "2024"), S "UC-XY12",
    [S "Jane Certificate no. UC-XY12"], [], [],
    S "g/assets/pdfs/2024-05-01-aibasics.pdf", S "udemy"⟩

/-- C1 witness: the udemy conjunct applied to a concrete extraction. -/
theorem extract_metadata_no_partial_record_witness :
    ∃ tg dg, udemyTitleSearch (clean_text rawU) = some tg
      ∧ udemyDateSearch (clean_text rawU) = some dg
      ∧ recU.title = stripS tg ∧ recU.completion = stripS dg :=
  (extract_metadata_no_partial_record (fun _ => false) (S "deadbeefcafe") (S "a/c.pdf")
      (S "certs") (S "g") (S "r") true false none none none rawU).1 recU (by
    have hclean : clean_text rawU = rawU := by
      simp [rawU, clean_text, stripS, collapseRuns, collapseWs, rstripR, isSpaceC, S]
    simp only [extract_metadata]
    rw [hclean]
    decide)

/-! ### C4: the cybrary completion-date pattern -/

/-- A cybrary page text with a January completion date. -/
def rawCJan : Str :=
  S "provided by Cybrary in Networking Date of Completion January 3, 2024 10:05AM UTC Certificate C-abcdef12-abc345"

/-- The same text with the month May. -/
def rawCMay : Str :=
  S "provided by Cybrary in Networking Date of Completion May 3, 2024 10:05AM UTC Certificate C-abcdef12-abc345"

/-- C4 counterexample: the date regex alternation names the literal month
`May` only, so a document whose date reads `January 3, 2024 10:05AM UTC`
(title and certificate id both present and matching) yields no date match
and no record at all — the claim's "any of the twelve month names" fails. -/
theorem cybrary_january_counterexample :
    cybTitleSearch (clean_text rawCJan) = some (S "Networking ")
    ∧ cybCertSearch (clean_text rawCJan) = some (S "abcdef12-abc345")
    ∧ cybDateSearch (clean_text rawCJan) = none
    ∧ extract_metadata (fun _ => false) (S "deadbeefcafe") (S "a/c.pdf") (S "certs") true
        (S "g") (S "r") none none none false (S "cybrary") rawCJan = none := by
  have hclean : clean_text rawCJan = rawCJan := by
    simp [rawCJan, clean_text, stripS, collapseRuns, collapseWs, rstripR, isSpaceC, S]
  refine ⟨by rw [hclean]; decide, by rw [hclean]; decide, by rw [hclean]; decide, ?_⟩
  simp only [extract_metadata]
  rw [hclean]
  decide

/-- A date of the shape `May <d>, <yyyy> <h>:<mm><A|P>M UTC`. -/
def mayShape (d : Str) : Prop :=
  ∃ day yr hr mi ap,
    d = S "May " ++ day ++ S ", " ++ yr ++ S " " ++ hr ++ S ":" ++ mi ++ [ap] ++ S "M UTC"
    ∧ (day.length = 1 ∨ day.length = 2) ∧ day.all isDigitC = true
    ∧ yr.length = 4 ∧ yr.all isDigitC = true
    ∧ (hr.length = 1 ∨ hr.length = 2) ∧ hr.all isDigitC = true
    ∧ mi.length = 2 ∧ mi.all isDigitC = true ∧ (ap = 'A' ∨ ap = 'P')

/-- A date of the shape `<dd>/<dd>/<yyyy>`. -/
def slashShape (d : Str) : Prop :=
  ∃ a b y, d = a ++ S "/" ++ b ++ S "/" ++ y
    ∧ a.length = 2 ∧ a.all isDigitC = true
    ∧ b.length = 2 ∧ b.all isDigitC = true
    ∧ y.length = 4 ∧ y.all isDigitC = true

theorem takeCount_inv {p : Char → Bool} : ∀ {n : Nat} {l ds r : Str},
    takeCount p n l = some (ds, r) → ds.length = n ∧ ds.all p = true := by
  intro n
  induction n with
  | zero =>
    intro l ds r h
    rw [takeCount] at h
    injection h with h2
    injection h2 with ha hb
    subst ha
    exact ⟨rfl, rfl⟩
  | succ n ih =>
    intro l ds r h
    cases l with
    | nil => exact absurd h (by rw [takeCount]; simp)
    | cons c rest =>
      rw [takeCount] at h
      by_cases hp : p c = true
      · rw [if_pos hp] at h
        cases h2 : takeCount p n rest with
        | none => rw [h2] at h; exact absurd h (by simp)
        | some pr =>
          obtain ⟨ds', r'⟩ := pr
          rw [h2] at h
          injection h with h3
          injection h3 with ha hb
          obtain ⟨hlen, hall⟩ := ih h2
          subst ha
          refine ⟨by simp [hlen], ?_⟩
          simp only [List.all_cons, hp, Bool.true_and]
          exact hall
      · rw [if_neg hp] at h
        exact absurd h (by simp)

theorem all_takeWhile {p : Char → Bool} (l : Str) : (l.takeWhile p).all p = true := by
  induction l with
  | nil => rfl
  | cons c rest ih =>
    by_cases hp : p c = true
    · simp [List.takeWhile_cons, hp, ih]
    · simp [List.takeWhile_cons, hp]

theorem digits12_inv {l ds r : Str} (h : digits12 l = some (ds, r)) :
    (ds.length = 1 ∨ ds.length = 2) ∧ ds.all isDigitC = true := by
  rw [digits12] at h
  by_cases hc : (l.takeWhile isDigitC).length = 1 ∨ (l.takeWhile isDigitC).length = 2
  · rw [if_pos hc] at h
    injection h with h2
    injection h2 with ha hb
    subst ha
    exact ⟨hc, all_takeWhile l⟩
  · rw [if_neg hc] at h
    exact absurd h (by simp)

theorem cybAlt1_shape {l m : Str} (h : cybAlt1 l = some m) : mayShape m := by
  rw [cybAlt1] at h
  simp only [Option.bind_eq_some] at h
  obtain ⟨r1, h1, dayr, h2, r3, h3, yrr, h4, r5, h5, hrr, h6, r7, h7, mir, h8, ap, h9, h⟩ := h
  by_cases hap : ap = 'A' ∨ ap = 'P'
  · rw [if_pos hap, Option.map_eq_some'] at h
    obtain ⟨r10, _, h10⟩ := h
    obtain ⟨hd1, hd2⟩ := digits12_inv (by rw [h2])
    obtain ⟨hy1, hy2⟩ := takeCount_inv (by rw [h4])
    obtain ⟨hh1, hh2⟩ := digits12_inv (by rw [h6])
    obtain ⟨hm1, hm2⟩ := takeCount_inv (by rw [h8])
    exact ⟨dayr.1, yrr.1, hrr.1, mir.1, ap, h10.symm, hd1, hd2, hy1, hy2, hh1, hh2,
      hm1, hm2, hap⟩
  · rw [if_neg hap] at h
    exact absurd h (by simp)

theorem cybAlt2_shape {l m : Str} (h : cybAlt2 l = some m) : slashShape m := by
  rw [cybAlt2] at h
  simp only [Option.bind_eq_some, Option.map_eq_some'] at h
  obtain ⟨ar, h1, r2, h2, br, h3, r4, h4, yr, h5, h⟩ := h
  obtain ⟨ha1, ha2⟩ := takeCount_inv (by rw [h1])
  obtain ⟨hb1, hb2⟩ := takeCount_inv (by rw [h3])
  obtain ⟨hy1, hy2⟩ := takeCount_inv (by rw [h5])
  exact ⟨ar.1, br.1, yr.1, h.symm, ha1, ha2, hb1, hb2, hy1, hy2⟩

theorem cybDateAt_shape {l m : Str} (h : cybDateAt l = some m) :
    mayShape m ∨ slashShape m := by
  rw [cybDateAt] at h
  rcases h1 : cybAlt1 l with _ | m1 <;> rw [h1] at h
  · exact Or.inr (cybAlt2_shape h)
  · injection h with h2
    exact Or.inl (h2 ▸ cybAlt1_shape h1)

theorem searchWith_prop {α : Type} {tryAt : Str → Option α} {P : α → Prop}
    (hAt : ∀ l g, tryAt l = some g → P g) :
    ∀ l g, searchWith tryAt l = some g → P g := by
  intro l
  induction l with
  | nil =>
    intro g h
    rw [searchWith] at h
    rcases h1 : tryAt [] with _ | g' <;> rw [h1] at h
    · exact absurd h (by simp)
    · injection h with h2
      exact h2 ▸ hAt [] g' h1
  | cons c rest ih =>
    intro g h
    rw [searchWith] at h
    rcases h1 : tryAt (c :: rest) with _ | g' <;> rw [h1] at h
    · exact ih g h
    · injection h with h2
      exact h2 ▸ hAt _ g' h1

/-- C4 amended: the cybrary completion date of any emitted record is the
result of the leftmost search for the alternation
`May <d>, <yyyy> <h>:<mm><A|P>M UTC | <dd>/<dd>/<yyyy>` — the first
alternative names the literal month `May` only, so dates with the other
eleven month names are never matched. -/
theorem cybrary_date_amended (fs : Str → Bool) (hash path tag gurl repo : Str)
    (tm fu : Bool) (fsk : Option (Str → Bool)) (fy : Option Str)
    (ft : Option (Str → Bool)) (raw : Str) :
    ∀ r, extract_metadata fs hash path tag tm gurl repo fsk fy ft fu (S "cybrary") raw
        = some r →
      ∃ d, cybDateSearch (clean_text raw) = some d ∧ r.completion = stripS d
        ∧ (mayShape d ∨ slashShape d) := by
  intro r h
  rw [extract_metadata, if_neg (by decide), if_pos rfl] at h
  obtain ⟨b, hb, _, hbc, _, _⟩ := finishRecord_inv h
  obtain ⟨tg, dg, cg, _, hdg, _, _, hbc2, _⟩ := cybraryBranch_inv hb
  refine ⟨dg, hdg, by rw [hbc, hbc2], ?_⟩
  exact searchWith_prop (fun l g hg => cybDateAt_shape hg) _ dg hdg

/-- The record `extract_metadata` produces for `rawCMay` in test mode. -/
def recCMay : Metadata :=
  ⟨S "Networking", S "May 3, 2024 10:05AM UTC", [], some (S "2024"),
    S "abcdef12-abc345", [], [], [], S "g/assets/pdfs/c.pdf", S "cybrary"⟩

/-- C4 witness: the amended theorem applied to a concrete May-dated
extraction. -/
theorem cybrary_date_amended_witness :
    ∃ d, cybDateSearch (clean_text rawCMay) = some d
      ∧ recCMay.completion = stripS d ∧ (mayShape d ∨ slashShape d) :=
  cybrary_date_amended (fun _ => false) (S "deadbeefcafe") (S "a/c.pdf") (S "certs")
    (S "g") (S "r") true false none none none rawCMay recCMay (by
      have hclean : clean_text rawCMay = rawCMay := by
        simp [rawCMay, clean_text, stripS, collapseRuns, collapseWs, rstripR, isSpaceC, S]
      simp only [extract_metadata]
      rw [hclean]
      decide)

/-! ### C5: the deeplearningai skills field -/

/-- Split a string at every occurrence of a separator character; the
recursive result is never empty, so prepending to its first group is total. -/
def splitOnChar (sep : Char) (l : Str) : List Str :=
  match l with
  | [] => [[]]
  | c :: rest =>
    if c = sep then [] :: splitOnChar sep rest
    else (c :: (splitOnChar sep rest).headI) :: (splitOnChar sep rest).tail

/-- A capitalized-word token: an uppercase initial and letters throughout. -/
def capToken (t : Str) : Bool :=
  match t with
  | [] => false
  | c :: _ => isUpperC c && t.all isAlphaC

/-- The claim's per-line test: the line consists solely of capitalized-word
tokens (split on spaces, empty tokens ignored, at least one token) and its
trimmed length exceeds 2. -/
def claimLineOK (l : Str) : Bool :=
  let ts := (splitOnChar ' ' l).filter (fun t => !t.isEmpty)
  !ts.isEmpty && ts.all capToken && decide (2 < (stripS l).length)

/-- The skills string as claim C5 words it: the join (with `", "`) of exactly
those lines of the normalized text that pass `claimLineOK`. -/
def claimSkillsC5 (text : Str) : Str :=
  List.intercalate (S ", ") ((splitOnChar '\n' text).filter claimLineOK)

theorem clean_text_space (l : Str) :
    ∀ c ∈ clean_text l, isSpaceC c = true → c = ' ' := by
  intro c hc hsp
  exact collapseWs_space_mem (collapseRuns l) c
    ((List.dropWhile_sublist _).subset (rstripR_mem hc)) hsp

theorem litCIP_pre {pat : Str} : ∀ {l r : Str}, litCIP pat l = some r → ∃ pre, l = pre ++ r := by
  induction pat with
  | nil =>
    intro l r h
    rw [litCIP] at h
    injection h with h2
    exact ⟨[], by rw [h2]; rfl⟩
  | cons p ps ih =>
    intro l r h
    cases l with
    | nil => exact absurd h (by rw [litCIP]; simp)
    | cons c rest =>
      rw [litCIP] at h
      by_cases hc : lowerC c = p
      · rw [if_pos hc] at h
        obtain ⟨pre, hpre⟩ := ih h
        exact ⟨c :: pre, by rw [List.cons_append, ← hpre]⟩
      · rw [if_neg hc] at h
        exact absurd h (by simp)

theorem lazyLoopDot_stopchar {acc l : Str} {g : Str}
    (h : lazyLoopDot dlaiTitleStop acc l = some g) :
    ∃ c ∈ l, c = '.' ∨ c = '!' ∨ c = '\n' := by
  induction l generalizing acc with
  | nil =>
    rw [lazyLoopDot] at h
    by_cases hs : dlaiTitleStop [] = true
    · exact absurd hs (by rw [dlaiTitleStop]; simp)
    · rw [if_neg hs] at h
      exact absurd h (by simp)
  | cons c rest ih =>
    rw [lazyLoopDot] at h
    by_cases hs : dlaiTitleStop (c :: rest) = true
    · rw [dlaiTitleStop] at hs
      simp only [Bool.or_eq_true, decide_eq_true_eq] at hs
      refine ⟨c, List.mem_cons_self _ _, ?_⟩
      tauto
    · rw [if_neg hs] at h
      by_cases hnl : c = '\n'
      · rw [if_pos hnl] at h
        exact absurd h (by simp)
      · rw [if_neg hnl] at h
        obtain ⟨d, hd, hd2⟩ := ih h
        exact ⟨d, List.mem_cons_of_mem _ hd, hd2⟩

theorem dlaiTitleAt_stopchar {l g : Str} (h : dlaiTitleAt l = some g) :
    ∃ c ∈ l, c = '.' ∨ c = '!' ∨ c = '\n' := by
  rw [dlaiTitleAt] at h
  rcases h1 : litCIP (S "congratulations on completing ") l with _ | r <;> rw [h1] at h
  · exact absurd h (by simp)
  cases r with
  | nil => exact absurd h (by simp)
  | cons c r2 =>
    obtain ⟨d, hd, hd2⟩ := lazyLoopDot_stopchar h
    obtain ⟨pre, hpre⟩ := litCIP_pre h1
    refine ⟨d, ?_, hd2⟩
    rw [hpre]
    exact List.mem_append_right _ (List.mem_cons_of_mem _ hd)

theorem searchWith_suffix {α : Type} {tryAt : Str → Option α} :
    ∀ {l : Str} {g : α}, searchWith tryAt l = some g →
      ∃ pre suf, l = pre ++ suf ∧ tryAt suf = some g := by
  intro l
  induction l with
  | nil =>
    intro g h
    rw [searchWith] at h
    rcases h1 : tryAt [] with _ | g' <;> rw [h1] at h
    · exact absurd h (by simp)
    · injection h with h2
      exact ⟨[], [], rfl, by rw [h1, h2]⟩
  | cons c rest ih =>
    intro g h
    rw [searchWith] at h
    rcases h1 : tryAt (c :: rest) with _ | g' <;> rw [h1] at h
    · obtain ⟨pre, suf, hps, hat⟩ := ih h
      exact ⟨c :: pre, suf, by rw [List.cons_append, ← hps], hat⟩
    · injection h with h2
      exact ⟨[], c :: rest, rfl, by rw [h1, h2]⟩

theorem dlaiTitleSearch_stopchar {l g : Str} (h : dlaiTitleSearch l = some g) :
    ∃ c ∈ l, c = '.' ∨ c = '!' ∨ c = '\n' := by
  obtain ⟨pre, suf, hps, hat⟩ := searchWith_suffix h
  obtain ⟨c, hc, hc2⟩ := dlaiTitleAt_stopchar hat
  exact ⟨c, by rw [hps]; exact List.mem_append_right _ hc, hc2⟩

theorem dlaiPickEnd_none {rest : Str} : ∀ {n : Nat},
    (∀ j, 1 ≤ j → j ≤ n → ¬(rest.drop j = [] ∨ (rest.drop j).head? = some '\n')) →
    dlaiPickEnd rest n = none := by
  intro n
  induction n with
  | zero => intro _; rw [dlaiPickEnd]
  | succ n ih =>
    intro h
    rw [dlaiPickEnd, if_neg (h (n + 1) (Nat.le_add_left _ _) (Nat.le_refl _))]
    exact ih fun j h1 h2 => h j h1 (Nat.le_succ_of_le h2)

theorem dlaiMatchAt_none {l : Str} (hnl : '\n' ∉ l)
    (hbad : ∃ c ∈ l, (isAlphaC c || isSpaceC c) = false) :
    dlaiMatchAt l = none := by
  obtain ⟨c0, hc0, hbad0⟩ := hbad
  cases l with
  | nil => exact absurd hc0 (by simp)
  | cons c rest =>
    rw [dlaiMatchAt]
    by_cases hup : isUpperC c = true
    · rw [if_pos hup]
      rw [dlaiPickEnd_none]
      · intro j h1 h2 hcon
        rcases hcon with hdrop | hhead
        · have hlen : rest.length ≤ j := List.drop_eq_nil_iff.mp hdrop
          have hjle : j ≤ (rest.takeWhile (fun d => isAlphaC d || isSpaceC d)).length := h2
          have hple : (rest.takeWhile (fun d => isAlphaC d || isSpaceC d)).length
              ≤ rest.length := (List.takeWhile_prefix _).length_le
          have heq : rest.takeWhile (fun d => isAlphaC d || isSpaceC d) = rest :=
            (List.takeWhile_prefix _).eq_of_length (Nat.le_antisymm hple (by omega))
          rcases List.mem_cons.mp hc0 with h3 | h3
          · subst h3
            rw [isAlphaC, hup] at hbad0
            simp at hbad0
          · have := List.mem_takeWhile_imp (heq ▸ h3)
            rw [this] at hbad0
            exact Bool.true_eq_false.mp hbad0
        · have : '\n' ∈ rest :=
            List.drop_subset _ _ (List.mem_of_mem_head? (Option.mem_def.mpr hhead))
          exact hnl (List.mem_cons_of_mem _ this)
    · rw [if_neg hup]

theorem dlaiScanF_tail : ∀ {fuel : Nat} {prev : Option Char} {l : Str},
    prev ≠ none → prev ≠ some '\n' → '\n' ∉ l → dlaiScanF fuel prev l = [] := by
  intro fuel
  induction fuel with
  | zero => intro prev l _ _ _; rfl
  | succ fuel ih =>
    intro prev l h1 h2 hnl
    show dlaiStepA (dlaiScanF fuel) prev l = []
    rw [dlaiStepA.eq_def, if_neg (by
      intro hcon
      rcases hcon with h3 | h3
      · exact h1 h3
      · exact h2 h3)]
    cases l with
    | nil => rfl
    | cons c rest =>
      exact ih (by simp) (by
          intro hcon
          injection hcon with hc
          exact hnl (hc ▸ List.mem_cons_self _ _))
        fun hm => hnl (List.mem_cons_of_mem _ hm)

theorem dlaiScanF_empty {l : Str} (hnl : '\n' ∉ l)
    (hbad : ∃ c ∈ l, (isAlphaC c || isSpaceC c) = false) :
    ∀ fuel, dlaiScanF fuel none l = [] := by
  intro fuel
  cases fuel with
  | zero => rfl
  | succ fuel =>
    show dlaiStepA (dlaiScanF fuel) none l = []
    rw [dlaiStepA.eq_def, if_pos (Or.inl rfl), dlaiMatchAt_none hnl hbad]
    cases l with
    | nil => rfl
    | cons c rest =>
      exact dlaiScanF_tail (by simp) (by
          intro hcon
          injection hcon with hc
          exact hnl (hc ▸ List.mem_cons_self _ _))
        fun hm => hnl (List.mem_cons_of_mem _ hm)

theorem dlaiFindall_empty {l : Str} (hnl : '\n' ∉ l)
    (hbad : ∃ c ∈ l, (isAlphaC c || isSpaceC c) = false) : dlaiFindall l = [] :=
  dlaiScanF_empty hnl hbad _

theorem splitOnChar_ne_nil (sep : Char) (l : Str) : splitOnChar sep l ≠ [] := by
  cases l with
  | nil => simp [splitOnChar]
  | cons c rest =>
    rw [splitOnChar]
    by_cases hc : c = sep
    · rw [if_pos hc]; simp
    · rw [if_neg hc]; simp

theorem splitOnChar_no_sep {sep : Char} : ∀ {l : Str}, sep ∉ l → splitOnChar sep l = [l] := by
  intro l
  induction l with
  | nil => intro _; rfl
  | cons c rest ih =>
    intro h
    have hc : ¬c = sep := fun he => h (he ▸ List.mem_cons_self _ _)
    rw [splitOnChar, if_neg hc, ih fun hm => h (List.mem_cons_of_mem _ hm)]
    rfl

theorem mem_splitOnChar {sep : Char} : ∀ {l : Str} {c : Char}, c ∈ l → c ≠ sep →
    ∃ t ∈ splitOnChar sep l, c ∈ t := by
  intro l
  induction l with
  | nil => intro c hc _; exact absurd hc (by simp)
  | cons d rest ih =>
    intro c hc hne
    by_cases hd : d = sep
    · rw [splitOnChar, if_pos hd]
      rcases List.mem_cons.mp hc with h1 | h1
      · exact absurd (h1.symm ▸ hd) hne
      · obtain ⟨t, ht, hct⟩ := ih h1 hne
        exact ⟨t, List.mem_cons_of_mem _ ht, hct⟩
    · rw [splitOnChar, if_neg hd]
      rcases hsp : splitOnChar sep rest with _ | ⟨g, gs⟩
      · exact absurd hsp (splitOnChar_ne_nil sep rest)
      · rcases List.mem_cons.mp hc with h1 | h1
        · exact ⟨d :: g, List.mem_cons_self _ _, h1 ▸ List.mem_cons_self _ _⟩
        · obtain ⟨t, ht, hct⟩ := ih h1 hne
          rw [hsp] at ht
          rcases List.mem_cons.mp ht with h2 | h2
          · exact ⟨d :: g, List.mem_cons_self _ _,
              List.mem_cons_of_mem _ (h2 ▸ hct)⟩
          · exact ⟨t, List.mem_cons_of_mem _ (by simpa using h2), hct⟩

/-- C5: for every deeplearningai document from which a record is emitted, the
skills field equals the join (with `", "`) of exactly those lines of the
normalized text that consist solely of capitalized-word tokens and whose
trimmed length exceeds 2.  (Both sides are in fact empty: a successful title
match forces a `.` or `!` into the one-line normalized text, which defeats
both the whole-text regex match and the claim's per-line test.) -/
theorem dlai_skills_match_claim (fs : Str → Bool) (hash path tag gurl repo : Str)
    (tm fu : Bool) (fsk : Option (Str → Bool)) (fy : Option Str)
    (ft : Option (Str → Bool)) (raw : Str) :
    ∀ r, extract_metadata fs hash path tag tm gurl repo fsk fy ft fu
        (S "deeplearningai") raw = some r →
      r.skills = claimSkillsC5 (clean_text raw) := by
  intro r h
  rw [extract_metadata, if_neg (by decide), if_neg (by decide), if_pos rfl] at h
  obtain ⟨b, hb, _, _, _, hbsk⟩ := finishRecord_inv h
  obtain ⟨tg, dg, htg, _, _, _, hsk⟩ := dlaiBranch_inv hb
  obtain ⟨c0, hc0mem, hc0⟩ := dlaiTitleSearch_stopchar htg
  have hnl : '\n' ∉ clean_text raw := by
    intro hmem
    have := clean_text_space raw '\n' hmem (by decide)
    exact absurd this (by decide)
  have hc0ne : c0 = '.' ∨ c0 = '!' := by
    rcases hc0 with h1 | h1 | h1
    · exact Or.inl h1
    · exact Or.inr h1
    · exact absurd (h1 ▸ hc0mem) hnl
  have hbadb : (isAlphaC c0 || isSpaceC c0) = false := by
    rcases hc0ne with h1 | h1 <;> rw [h1] <;> decide
  have hfind : dlaiFindall (clean_text raw) = [] :=
    dlaiFindall_empty hnl ⟨c0, hc0mem, hbadb⟩
  have hskills : r.skills = [] := by
    rw [hbsk, hsk, hfind]
    rfl
  have hlineNo : claimLineOK (clean_text raw) = false := by
    obtain ⟨t, ht, hct⟩ := @mem_splitOnChar ' ' (clean_text raw) c0 hc0mem
      (by rcases hc0ne with h1 | h1 <;> subst h1 <;> decide)
    have htne : (!t.isEmpty) = true := by
      cases t with
      | nil => exact absurd hct (by simp)
      | cons _ _ => rfl
    have htf : t ∈ (splitOnChar ' ' (clean_text raw)).filter (fun t => !t.isEmpty) :=
      List.mem_filter.mpr ⟨ht, htne⟩
    have hcap : capToken t = false := by
      cases t with
      | nil => rfl
      | cons d rest =>
        rw [capToken]
        have hall : (d :: rest).all isAlphaC = false := by
          rw [List.all_eq_false]
        
          refine ⟨c0, hct, ?_⟩
          intro halpha
          rw [halpha] at hbadb
          simp at hbadb
        rw [hall, Bool.and_false]
    have hts : ((splitOnChar ' ' (clean_text raw)).filter (fun t => !t.isEmpty)).all capToken
        = false := List.all_eq_false.mpr ⟨t, htf, by rw [hcap]; exact Bool.false_ne_true⟩
    rw [claimLineOK]
    simp only [hts, Bool.and_false, Bool.false_and]
  have hclaim : claimSkillsC5 (clean_text raw) = [] := by
    rw [claimSkillsC5, splitOnChar_no_sep hnl]
    simp [hlineNo, List.intercalate]
  rw [hskills, hclaim]

/-- A demonstration deeplearningai page text (already normalized). -/
def rawD : Str := S "Congratulations on completing AI Basics. Jane Smith"

/-- The record `extract_metadata` produces for `rawD` in test mode. -/
def recD : Metadata :=
  ⟨S "AI Basics", S "2024-01-02", [], some (S "2024"), S "deadbeef",
    [S "DeepLearning.AI"], [], [], S "g/assets/pdfs/2024-01-02-x.pdf",
    S "deeplearningai"⟩

/-- C5 witness: the theorem applied to a concrete extraction (whose skills
string and claim-side formula are both empty). -/
theorem dlai_skills_match_claim_witness :
    recD.skills = claimSkillsC5 (clean_text rawD) :=
  dlai_skills_match_claim (fun _ => false) (S "deadbeefcafe") (S "a/2024-01-02-x.pdf")
    (S "certs") (S "g") (S "r") true false none none none rawD recD (by
      have hclean : clean_text rawD = rawD := by
        simp [rawD, clean_text, stripS, collapseRuns, collapseWs, rstripR, isSpaceC, S]
      simp only [extract_metadata]
      rw [hclean]
      decide)
